import Mathlib

/-!
# Verification development for `seo_audit.py` (tamias seo-audit skill)

A shallow embedding of the crawler + SEO analyzer in `seo_audit.py`.
Python strings are modelled as `List Char`.  The pieces of CPython's
`urllib.parse` that `norm_url` depends on (`urljoin`, `urlparse`,
`urlsplit`, `urlunparse`, `urlunsplit`, `_splitparams`, `_splitnetloc`)
are embedded faithfully from the CPython 3.11 sources, except for the
raise-only validation paths (`_check_bracketed_host`, `_checknetloc`,
which only ever raise `ValueError` on exotic netlocs and otherwise do
not affect the result).

HTML parsing (BeautifulSoup) and JSON parsing are external capabilities:
a parsed document is modelled as a `Soup` value holding exactly the data
the extractor queries, and `extract_onpage` is embedded over it.
-/

namespace SeoAudit

/-- Python strings, modelled as lists of characters. -/
abbrev Str := List Char

/-- Turn a Lean string literal into a modelled Python string. -/
def pystr (s : String) : Str := s.toList

/-! ## Python string primitives -/

/-- The characters for which Python's `str.isspace()` is true
(the set stripped by `str.strip()` with no arguments). -/
def pyIsSpace (c : Char) : Bool :=
  decide ((9 ≤ c.toNat ∧ c.toNat ≤ 13) ∨ (28 ≤ c.toNat ∧ c.toNat ≤ 32) ∨
    c.toNat = 0x85 ∨ c.toNat = 0xa0 ∨ c.toNat = 0x1680 ∨
    (0x2000 ≤ c.toNat ∧ c.toNat ≤ 0x200a) ∨ c.toNat = 0x2028 ∨ c.toNat = 0x2029 ∨
    c.toNat = 0x202f ∨ c.toNat = 0x205f ∨ c.toNat = 0x3000)

/-- `s.strip(P)`: drop characters satisfying `P` from both ends. -/
def pyStripP (P : Char → Bool) (s : Str) : Str :=
  ((s.dropWhile P).reverse.dropWhile P).reverse

/-- Python `s.strip()` (no arguments: strips whitespace). -/
def pyStrip (s : Str) : Str := pyStripP pyIsSpace s

/-- Python `s.rstrip('/')`. -/
def pyRstripSlash (s : Str) : Str :=
  (s.reverse.dropWhile (fun c => c = '/')).reverse

/-- Python `s.startswith(pre)`. -/
def pyStartsWith (pre s : Str) : Bool := List.isPrefixOf pre s

/-- Python `s.lower()`, for the ASCII range (all inputs the program
lowercases are ASCII-checked attribute names / scheme characters). -/
def pyLower (s : Str) : Str := s.map Char.toLower

/-- Split at the first occurrence of `c` (Python `s.split(c, 1)` when
`c in s`); `none` when `c` does not occur. -/
def splitOnFirst (c : Char) : Str → Option (Str × Str)
  | [] => none
  | a :: s =>
    if a = c then some ([], s)
    else match splitOnFirst c s with
      | none => none
      | some (x, y) => some (a :: x, y)

/-- Split at the last occurrence of `c`: `s = a ++ c :: b` with `c ∉ b`. -/
def lastSplitOn (c : Char) (s : Str) : Option (Str × Str) :=
  match splitOnFirst c s.reverse with
  | none => none
  | some (x, y) => some (y.reverse, x.reverse)

/-- Python `s.split(c)` for a one-character separator. -/
def pySplitChar (c : Char) : Str → List Str
  | [] => [[]]
  | a :: rest =>
    if a = c then [] :: pySplitChar c rest
    else match pySplitChar c rest with
      | [] => [[a]]
      | s :: ss => (a :: s) :: ss

/-- `'/'.join(parts)`. -/
def joinSlash (parts : List Str) : Str := List.intercalate ['/'] parts

/-! ## Embedding of CPython 3.11 `urllib.parse` (the parts `norm_url` uses) -/

/-- `_WHATWG_C0_CONTROL_OR_SPACE` membership: code points `0x00`–`0x20`. -/
def isC0OrSpace (c : Char) : Bool := decide (c.toNat ≤ 0x20)

/-- `_UNSAFE_URL_BYTES_TO_REMOVE` membership: tab, CR, LF. -/
def isUnsafeUrlByte (c : Char) : Bool := c = '\t' ∨ c = '\r' ∨ c = '\n'

/-- `urlsplit`'s input sanitization: `url.lstrip(_WHATWG_C0_CONTROL_OR_SPACE)`
followed by removal of every unsafe byte. -/
def sanitizeUrl (s : Str) : Str :=
  (s.dropWhile isC0OrSpace).filter (fun c => !isUnsafeUrlByte c)

/-- `urlsplit`'s sanitization of the default scheme argument:
`scheme.strip(_WHATWG_C0_CONTROL_OR_SPACE)` then unsafe-byte removal. -/
def sanitizeScheme (s : Str) : Str :=
  (pyStripP isC0OrSpace s).filter (fun c => !isUnsafeUrlByte c)

/-- Membership in `scheme_chars`: ASCII letters, digits, `+`, `-`, `.`. -/
def isSchemeChar (c : Char) : Bool := c.isAlpha || c.isDigit || c = '+' || c = '-' || c = '.'

/-- The scheme-detection step of `urlsplit`:
`i = url.find(':')`; when `i > 0`, `url[0]` is an ASCII letter and every
character of `url[:i]` is a scheme character, the scheme is `url[:i].lower()`
and the remainder `url[i+1:]`; otherwise no scheme is found. -/
def schemeSplit (url : Str) : Option (Str × Str) :=
  match splitOnFirst ':' url with
  | none => none
  | some ([], _) => none
  | some (c0 :: pre, rest) =>
    if c0.isAlpha ∧ (c0 :: pre).all isSchemeChar
    then some (pyLower (c0 :: pre), rest)
    else none

/-- `urlsplit`'s netloc delimiters `/?#` (`_splitnetloc`). -/
def notNetlocDelim (c : Char) : Bool := !(c = '/' || c = '?' || c = '#')

/-- Result of `urlsplit`. -/
structure USplit where
  scheme : Str
  netloc : Str
  path : Str
  query : Str
  fragment : Str
deriving DecidableEq, Repr

/-- Result of `urlparse` (`urlsplit` plus the params component). -/
structure UParse where
  scheme : Str
  netloc : Str
  path : Str
  params : Str
  query : Str
  fragment : Str
deriving DecidableEq, Repr

/-- `urllib.parse.urlsplit(url, scheme)` with `allow_fragments=True`
(as `seo_audit.py` always calls it).  The raise-only IPv6-bracket and
`_checknetloc` validations are not modelled. -/
def urlsplit (url0 : Str) (defaultScheme : Str) : USplit :=
  let url1 := sanitizeUrl url0
  let ds := sanitizeScheme defaultScheme
  let su : Str × Str :=
    match schemeSplit url1 with
    | some (s, r) => (s, r)
    | none => (ds, url1)
  let scheme := su.1
  let url2 := su.2
  let nu : Str × Str :=
    if url2.take 2 = ['/', '/']
    then ((url2.drop 2).takeWhile notNetlocDelim, (url2.drop 2).dropWhile notNetlocDelim)
    else ([], url2)
  let netloc := nu.1
  let url3 := nu.2
  let uf : Str × Str :=
    match splitOnFirst '#' url3 with
    | some (a, b) => (a, b)
    | none => (url3, [])
  let url4 := uf.1
  let fragment := uf.2
  let pq : Str × Str :=
    match splitOnFirst '?' url4 with
    | some (a, b) => (a, b)
    | none => (url4, [])
  ⟨scheme, netloc, pq.1, pq.2, fragment⟩

/-- `uses_relative` (CPython 3.11). -/
def usesRelative : List Str :=
  [pystr "", pystr "ftp", pystr "http", pystr "gopher", pystr "nntp", pystr "imap",
   pystr "wais", pystr "file", pystr "https", pystr "shttp", pystr "mms",
   pystr "prospero", pystr "rtsp", pystr "rtsps", pystr "rtspu", pystr "sftp",
   pystr "svn", pystr "svn+ssh", pystr "ws", pystr "wss"]

/-- `uses_netloc` (CPython 3.11). -/
def usesNetloc : List Str :=
  [pystr "", pystr "ftp", pystr "http", pystr "gopher", pystr "nntp", pystr "telnet",
   pystr "imap", pystr "wais", pystr "file", pystr "mms", pystr "https", pystr "shttp",
   pystr "snews", pystr "prospero", pystr "rtsp", pystr "rtsps", pystr "rtspu",
   pystr "rsync", pystr "svn", pystr "svn+ssh", pystr "sftp", pystr "nfs",
   pystr "git", pystr "git+ssh", pystr "ws", pystr "wss"]

/-- `uses_params` (CPython 3.11). -/
def usesParams : List Str :=
  [pystr "", pystr "ftp", pystr "hdl", pystr "prospero", pystr "http", pystr "imap",
   pystr "https", pystr "shttp", pystr "rtsp", pystr "rtsps", pystr "rtspu",
   pystr "sip", pystr "sips", pystr "mms", pystr "sftp", pystr "tel"]

/-- `_splitparams(url)`: split the last path segment at its first `;`.
In the `'/' not in url` branch Python computes `i = url.find(';')` and
returns `url[:i], url[i+1:]`; when `;` is absent (`i = -1`, unreachable
under `urlparse`'s `';' in url` guard) that is `(url[:-1], url)`. -/
def splitparams (u : Str) : Str × Str :=
  match lastSplitOn '/' u with
  | some (a, b) =>
    match splitOnFirst ';' b with
    | none => (u, [])
    | some (b1, b2) => (a ++ '/' :: b1, b2)
  | none =>
    match splitOnFirst ';' u with
    | none => (u.dropLast, u)
    | some (u1, u2) => (u1, u2)

/-- `urllib.parse.urlparse(url, scheme)` with `allow_fragments=True`. -/
def urlparse (url ds : Str) : UParse :=
  let s := urlsplit url ds
  let pp : Str × Str :=
    if s.scheme ∈ usesParams ∧ ';' ∈ s.path then splitparams s.path
    else (s.path, [])
  ⟨s.scheme, s.netloc, pp.1, pp.2, s.query, s.fragment⟩

/-- `urllib.parse.urlunsplit` (CPython 3.11: the `//` is inserted when the
netloc is non-empty, or when the scheme is a `uses_netloc` scheme and the
path does not already begin with `//`). -/
def urlunsplit (s : USplit) : Str :=
  let url0 := s.path
  let url1 :=
    if s.netloc ≠ [] ∨ (s.scheme ≠ [] ∧ s.scheme ∈ usesNetloc ∧ url0.take 2 ≠ ['/', '/'])
    then '/' :: '/' :: (s.netloc ++ (if url0 ≠ [] ∧ url0.take 1 ≠ ['/'] then '/' :: url0 else url0))
    else url0
  let url2 := if s.scheme ≠ [] then s.scheme ++ ':' :: url1 else url1
  let url3 := if s.query ≠ [] then url2 ++ '?' :: s.query else url2
  if s.fragment ≠ [] then url3 ++ '#' :: s.fragment else url3

/-- `urllib.parse.urlunparse` (re-attach params, then `urlunsplit`).
This is also `ParseResult.geturl`. -/
def urlunparse (p : UParse) : Str :=
  let url := if p.params ≠ [] then p.path ++ ';' :: p.params else p.path
  urlunsplit ⟨p.scheme, p.netloc, url, p.query, p.fragment⟩

/-- `segments[1:-1] = filter(None, segments[1:-1])`: drop empty strings
from the middle of the list, keeping the first and last elements. -/
def filterMiddleAux (b : Str) : List Str → List Str
  | [] => [b]
  | c :: rest => if b = [] then filterMiddleAux c rest else b :: filterMiddleAux c rest

/-- See `filterMiddleAux`. -/
def filterMiddle : List Str → List Str
  | [] => []
  | [a] => [a]
  | a :: b :: rest => a :: filterMiddleAux b rest

/-- The `..`/`.` resolution loop of `urljoin` (pop ignores underflow). -/
def resolveSegments (segs : List Str) : List Str :=
  segs.foldl
    (fun acc seg =>
      if seg = ['.', '.'] then acc.dropLast
      else if seg = ['.'] then acc
      else acc ++ [seg])
    []

/-- `urllib.parse.urljoin(base, url)` (CPython 3.11), `allow_fragments=True`. -/
def urljoin (base url : Str) : Str :=
  if base = [] then url
  else if url = [] then base
  else
    let b := urlparse base []
    let u := urlparse url b.scheme
    if u.scheme ≠ b.scheme ∨ u.scheme ∉ usesRelative then url
    else if u.scheme ∈ usesNetloc ∧ u.netloc ≠ [] then
      urlunparse ⟨u.scheme, u.netloc, u.path, u.params, u.query, u.fragment⟩
    else
      let netloc := if u.scheme ∈ usesNetloc then b.netloc else u.netloc
      if u.path = [] ∧ u.params = [] then
        let query := if u.query = [] then b.query else u.query
        urlunparse ⟨u.scheme, netloc, b.path, b.params, query, u.fragment⟩
      else
        let baseParts0 := pySplitChar '/' b.path
        let baseParts :=
          if baseParts0.getLast? ≠ some [] then baseParts0.dropLast else baseParts0
        let segments :=
          if u.path.take 1 = ['/'] then pySplitChar '/' u.path
          else filterMiddle (baseParts ++ pySplitChar '/' u.path)
        let resolved0 := resolveSegments segments
        let resolved :=
          if segments.getLast? = some ['.'] ∨ segments.getLast? = some ['.', '.']
          then resolved0 ++ [[]] else resolved0
        let path := match joinSlash resolved with
          | [] => ['/']
          | p => p
        urlunparse ⟨u.scheme, netloc, path, u.params, u.query, u.fragment⟩

/-! ## `norm_url` (seo_audit.py lines 56–69) -/

/-- `norm_url(base, link)`: reject falsy links, strip, reject
`javascript:`/`mailto:`/`tel:`, resolve against the base, require an
`http(s)` scheme, and drop the fragment. -/
def norm_url (base link : Str) : Option Str :=
  if link = [] then none
  else
    let l := pyStrip link
    if pyStartsWith (pystr "javascript:") l ∨ pyStartsWith (pystr "mailto:") l ∨
       pyStartsWith (pystr "tel:") l then none
    else
      let parsed := urlparse (urljoin base l) []
      if parsed.scheme = pystr "http" ∨ parsed.scheme = pystr "https" then
        some (urlunparse { parsed with fragment := [] })
      else none

/-- `norm_url` as called on an anchor's `href`, which may be absent
(`None`); `if not link` treats `None` like the empty string. -/
def normHref (base : Str) (href : Option Str) : Option Str :=
  match href with
  | none => none
  | some l => norm_url base l

/-! ## Word and phrase tokenization (WORD_RE and the phrase regex) -/

/-- Helper for `runsOf`: `cur` is the reversed run in progress. -/
def runsOfAux (P : Char → Bool) (cur : Str) : Str → List Str
  | [] => if cur = [] then [] else [cur.reverse]
  | c :: rest =>
    if P c then runsOfAux P (c :: cur) rest
    else if cur = [] then runsOfAux P [] rest
    else cur.reverse :: runsOfAux P [] rest

/-- Maximal runs of characters satisfying `P` (the shape of a greedy
character-class regex `findall`). -/
def runsOf (P : Char → Bool) (s : Str) : List Str := runsOfAux P [] s

/-- `WORD_RE.findall(s.lower())`: maximal runs of two or more ASCII
letters in the lowercased text. -/
def tokenizeWords (s : Str) : List Str :=
  (runsOf Char.isAlpha (pyLower s)).filter (fun r => decide (2 ≤ r.length))

/-- The phrase-candidate character class (letters, digits, hyphen,
underscore, space). -/
def isPhraseChar (c : Char) : Bool :=
  c.isAlpha || c.isDigit || c = '-' || c = '_' || c = ' '

/-- The phrase regex findall: maximal runs of length at least two of the
phrase character class. -/
def phraseRuns (s : Str) : List Str :=
  (runsOf isPhraseChar s).filter (fun r => decide (2 ≤ r.length))

/-- Python `s.split()` (no separator): maximal non-whitespace runs. -/
def pySplitWs (s : Str) : List Str := runsOf (fun c => !pyIsSpace c) s

/-- `' '.join(parts)`. -/
def joinSpace (parts : List Str) : Str := List.intercalate [' '] parts

/-- The `STOPWORDS` set of `seo_audit.py` (verbatim). -/
def STOPWORDS : List Str :=
  [pystr "about", pystr "above", pystr "after", pystr "again", pystr "against", pystr "all", pystr "am",
   pystr "an", pystr "and", pystr "any", pystr "are", pystr "aren't", pystr "as", pystr "at",
   pystr "be", pystr "because", pystr "been", pystr "before", pystr "being", pystr "below", pystr "between",
   pystr "both", pystr "but", pystr "by", pystr "can't", pystr "cannot", pystr "could", pystr "couldn't",
   pystr "did", pystr "didn't", pystr "do", pystr "does", pystr "doesn't", pystr "doing", pystr "don't",
   pystr "down", pystr "during", pystr "each", pystr "few", pystr "for", pystr "from", pystr "further",
   pystr "had", pystr "hadn't", pystr "has", pystr "hasn't", pystr "have", pystr "haven't", pystr "having",
   pystr "he", pystr "he'd", pystr "he'll", pystr "he's", pystr "her", pystr "here", pystr "here's",
   pystr "hers", pystr "herself", pystr "him", pystr "himself", pystr "his", pystr "how", pystr "how's",
   pystr "i", pystr "i'd", pystr "i'll", pystr "i'm", pystr "i've", pystr "if", pystr "in",
   pystr "into", pystr "is", pystr "isn't", pystr "it", pystr "it's", pystr "its", pystr "itself",
   pystr "let's", pystr "me", pystr "more", pystr "most", pystr "mustn't", pystr "my", pystr "myself",
   pystr "no", pystr "nor", pystr "not", pystr "of", pystr "off", pystr "on", pystr "once",
   pystr "only", pystr "or", pystr "other", pystr "ought", pystr "our", pystr "ours", pystr "ourselves",
   pystr "out", pystr "over", pystr "own", pystr "same", pystr "shan't", pystr "she", pystr "she'd",
   pystr "she'll", pystr "she's", pystr "should", pystr "shouldn't", pystr "so", pystr "some", pystr "such",
   pystr "than", pystr "that", pystr "that's", pystr "the", pystr "their", pystr "theirs", pystr "them",
   pystr "themselves", pystr "then", pystr "there", pystr "there's", pystr "these", pystr "they", pystr "they'd",
   pystr "they'll", pystr "they're", pystr "they've", pystr "this", pystr "those", pystr "through", pystr "to",
   pystr "too", pystr "under", pystr "until", pystr "up", pystr "very", pystr "was", pystr "wasn't",
   pystr "we", pystr "we'd", pystr "we'll", pystr "we're", pystr "we've", pystr "were", pystr "weren't",
   pystr "what", pystr "what's", pystr "when", pystr "when's", pystr "where", pystr "where's", pystr "which",
   pystr "while", pystr "who", pystr "who's", pystr "whom", pystr "why", pystr "why's", pystr "with",
   pystr "won't", pystr "would", pystr "wouldn't", pystr "you", pystr "you'd", pystr "you'll", pystr "you're",
   pystr "you've", pystr "your", pystr "yours", pystr "yourself", pystr "yourselves"]

/-! ## Parsed-document model and `extract_onpage` (lines 89–154)

BeautifulSoup itself is an external capability (out of scope per the
design: the HTML tokenizer is consumed, not reimplemented).  A `Soup`
holds exactly the query results `extract_onpage` reads from the parsed
tree; `extract_onpage` is embedded over it.  JSON parsing of `ld+json`
blocks is likewise external: each block is carried as `some v` (parsed
value, abstracted as its text) or `none` (a `json.loads` failure, which
the code silently skips). -/

structure MetaTag where
  name : Option Str
  property : Option Str
  content : Option Str
deriving DecidableEq, Repr

structure CanonTag where
  href : Option Str
deriving DecidableEq, Repr

structure ImgTag where
  src : Option Str
  alt : Option Str
deriving DecidableEq, Repr

structure ATag where
  href : Option Str
  text : Str
deriving DecidableEq, Repr

structure Soup where
  titleString : Option (Option Str)
  metas : List MetaTag
  canonicalLink : Option CanonTag
  h1s : List Str
  h2s : List Str
  imgs : List ImgTag
  anchors : List ATag
  jsonldBlocks : List (Option Str)
  bodyText : Str
deriving DecidableEq, Repr

structure ImgRec where
  src : Str
  alt : Str
deriving DecidableEq, Repr

structure LinkRec where
  href : Option Str
  text : Str
deriving DecidableEq, Repr

structure PageRecord where
  title : Str
  meta_description : Str
  meta_robots : Str
  canonical : Str
  og : List (Str × Str)
  twitter : List (Str × Str)
  h1s : List Str
  h2s : List Str
  images : List ImgRec
  links : List LinkRec
  jsonld : List Str
  word_count : Nat
  words : List Str
  body_text : Str
deriving DecidableEq, Repr

/-- Python dict assignment `d[k] = v`: overwrite in place, append new keys. -/
def dictSet : List (Str × Str) → Str → Str → List (Str × Str)
  | [], k, v => [(k, v)]
  | (a, b) :: rest, k, v =>
    if a = k then (a, v) :: rest else (a, b) :: dictSet rest k v

/-- Truthiness of `tag.get(attr)`: present and non-empty. -/
def truthy : Option Str → Bool
  | none => false
  | some s => s ≠ []

/-- `extract_onpage(url, html)` (the `url` parameter is unused in the
source).  The source's single loop over the meta tags updates four
independent accumulators (`meta_desc`, `meta_robots`, `og`, `twitter`);
it is embedded as four folds over the same tag list. -/
def extract_onpage (soup : Soup) : PageRecord :=
  let title := match soup.titleString with
    | some (some s) => if s ≠ [] then pyStrip s else []
    | _ => []
  let meta_desc := soup.metas.foldl
    (fun acc tag =>
      if pyLower (tag.name.getD []) = pystr "description" ∧ truthy tag.content
      then pyStrip (tag.content.getD []) else acc) []
  let meta_robots := soup.metas.foldl
    (fun acc tag =>
      if pyLower (tag.name.getD []) = pystr "robots" ∧ truthy tag.content
      then pyStrip (tag.content.getD []) else acc) []
  let og := soup.metas.foldl
    (fun acc tag =>
      if pyStartsWith (pystr "og:") (pyLower (tag.property.getD []))
      then dictSet acc (tag.property.getD []) (tag.content.getD []) else acc) []
  let twitter := soup.metas.foldl
    (fun acc tag =>
      if pyStartsWith (pystr "twitter:") (pyLower (tag.name.getD []))
      then dictSet acc (tag.name.getD []) (tag.content.getD []) else acc) []
  let canonical := match soup.canonicalLink with
    | some l => if truthy l.href then pyStrip (l.href.getD []) else []
    | none => []
  let words := tokenizeWords soup.bodyText
  { title := title
    meta_description := meta_desc
    meta_robots := meta_robots
    canonical := canonical
    og := og
    twitter := twitter
    h1s := soup.h1s
    h2s := soup.h2s
    images := soup.imgs.map (fun i => { src := i.src.getD [], alt := i.alt.getD [] })
    links := soup.anchors.map (fun a => { href := a.href, text := a.text })
    jsonld := soup.jsonldBlocks.filterMap id
    word_count := words.length
    words := words
    body_text := soup.bodyText }

/-! ## `collections.Counter` -/

/-- A `Counter`: an insertion-ordered association list of counts. -/
abbrev Counter := List (Str × Nat)

/-- Count one occurrence of `k` (new keys are appended, existing keys
keep their position, as Python dicts do). -/
def counterAdd : Counter → Str → Counter
  | [], k => [(k, 1)]
  | (a, n) :: rest, k =>
    if a = k then (a, n + 1) :: rest else (a, n) :: counterAdd rest k

/-- `Counter.update(ws)`. -/
def counterExtend (c : Counter) (ws : List Str) : Counter := ws.foldl counterAdd c

/-- Stable insertion into a list sorted by descending counts: the new
entry goes after every entry of count at least its own. -/
def insertCountDesc (x : Str × Nat) : Counter → Counter
  | [] => [x]
  | y :: ys => if x.2 ≤ y.2 then y :: insertCountDesc x ys else x :: y :: ys

/-- Stable sort by descending count (ties keep insertion order), the
order `Counter.most_common` produces. -/
def sortCountDesc (l : Counter) : Counter :=
  l.foldl (fun acc x => insertCountDesc x acc) []

/-- `Counter.most_common(n)`. -/
def mostCommon (c : Counter) (n : Nat) : Counter := (sortCountDesc c).take n

/-- Association-list lookup (Python dict lookup; keys are unique in any
dict-derived list). -/
def lookupA {beta : Type} : List (Str × beta) → Str → Option beta
  | [], _ => none
  | (a, b) :: rest, k => if a = k then some b else lookupA rest k

/-! ## Crawl-result entries (the three record shapes `crawl` stores) -/

/-- One entry of the `results` dict: a transport error (an `error`
record), an HTTP error (an `http`/`final_url` record, written only for
non-200 statuses), or a success record with the extracted on-page data
(its `http` field is always `200`; the `elapsed`/`headers` bookkeeping
fields are not consulted by `analyze` and are not modelled). -/
inductive Entry where
  | err (msg : Str)
  | http (status : Nat) (finalUrl : Str)
  | page (finalUrl : Str) (onpage : PageRecord)
deriving DecidableEq, Repr

abbrev CrawlResult := List (Str × Entry)

/-- The `onpage` field when present. -/
def entryOnpage : Entry → Option PageRecord
  | .page _ pg => some pg
  | _ => none

/-- `r.get('http')`: absent for transport errors, the stored status for
HTTP errors, `200` for success records. -/
def entryHttpGet : Entry → Option Nat
  | .err _ => none
  | .http s _ => some s
  | .page _ _ => some 200


/-! ## `analyze` (lines 212–375)

The source's single pass over `results.items()` maintains independent
accumulators (issue lists, counters, per-page reports); each summary
field is embedded as its own pass over the same list, in the same
iteration order.  The `checklist` and the fixed `recommendations`
strings are presentation-only fields no claim touches and are not
modelled; the local `extern` list of external link targets is computed
by the source but never stored in the summary, and is dropped here. -/

/-- One value of `summary['per_page']`: an error-only report, a
status-only report, or the full content report. -/
inductive PageReport where
  | errR (msg : Str)
  | httpR (status : Nat)
  | okR (title : Str) (titleLength : Nat) (metaDescription : Str)
    (metaDescriptionLength : Nat) (h1s : List Str) (wordCount : Nat) (numImages : Nat)
deriving DecidableEq, Repr

/-- The per-page report built by the `analyze` loop for one entry. -/
def reportOf : Entry → PageReport
  | .err m => .errR m
  | .http s _ => .httpR s
  | .page _ pg =>
    .okR pg.title pg.title.length pg.meta_description pg.meta_description.length
      pg.h1s pg.word_count pg.images.length

/-- The content pages of a result mapping, with their addresses, in
iteration order (entries the loop skips with `continue` are dropped). -/
def contentItems (results : CrawlResult) : List (Str × PageRecord) :=
  results.filterMap (fun p =>
    match p.2 with
    | .page _ pg => some (p.1, pg)
    | _ => none)

/-- The content pages of a result mapping, in iteration order. -/
def contentRecords (results : CrawlResult) : List PageRecord :=
  results.filterMap (fun p => entryOnpage p.2)

/-- The broken-link list collected for one content page: every anchor
whose normalized target is same-site relative to this page's own
address and sits in `results` with a truthy non-200 `'http'` value. -/
def brokenStep (sameSite : Str → Str → Bool) (results : CrawlResult) (url : Str)
    (acc : List (Str × Nat)) (a : LinkRec) : List (Str × Nat) :=
  match normHref url a.href with
  | none => acc
  | some norm =>
    if sameSite url norm then
      match lookupA results norm with
      | some rr =>
        match entryHttpGet rr with
        | some s => if s ≠ 0 ∧ s ≠ 200 then acc ++ [(norm, s)] else acc
        | none => acc
      | none => acc
    else acc

/-- See `brokenStep`: fold the check over the page's anchor list. -/
def brokenOf (sameSite : Str → Str → Bool) (results : CrawlResult)
    (url : Str) (pg : PageRecord) : List (Str × Nat) :=
  pg.links.foldl (brokenStep sameSite results url) []

/-- Global word counter: stopword-filtered words of every content page. -/
def wordCountsOf (ons : List PageRecord) : Counter :=
  ons.foldl (fun c pg => counterExtend c (pg.words.filter (fun w => decide (w ∉ STOPWORDS)))) []

/-- Global counter of non-empty titles of content pages. -/
def titleCountsOf (ons : List PageRecord) : Counter :=
  ons.foldl (fun c pg => if pg.title ≠ [] then counterAdd c pg.title else c) []

/-- Global counter of non-empty meta descriptions of content pages. -/
def metaCountsOf (ons : List PageRecord) : Counter :=
  ons.foldl (fun c pg => if pg.meta_description ≠ [] then counterAdd c pg.meta_description else c) []

/-- Phrase-candidate counter: phrase runs from each content page's title
and H1 texts, tokenized and stopword-filtered, kept when 1–5 words long. -/
def phraseCountsOf (ons : List PageRecord) : Counter :=
  ons.foldl
    (fun c pg =>
      let cands := (if pg.title ≠ [] then phraseRuns pg.title else []) ++
        pg.h1s.flatMap phraseRuns
      cands.foldl
        (fun c r =>
          let ws := (tokenizeWords r).filter (fun w => decide (w ∉ STOPWORDS))
          if 1 ≤ ws.length ∧ ws.length ≤ 5 then counterAdd c (joinSpace ws) else c)
        c)
    []

/-- One scored keyword candidate of `summary['candidate_phrases']`. -/
structure PhraseCand where
  phrase : Str
  count : Nat
  overlap_with_top_unigrams : Nat
  score : Nat
deriving DecidableEq, Repr

/-- Score the top phrases: `overlap` counts the phrase's words that sit
in `set(w for w, _ in top_words[:120])`, and `score = count + overlap`. -/
def scorePhrases (topWords : Counter) (topPhrases : Counter) : List PhraseCand :=
  let uniset := (topWords.take 120).map Prod.fst
  topPhrases.map
    (fun p =>
      let parts := pySplitWs p.1
      let ov := parts.countP (fun w => decide (w ∈ uniset))
      { phrase := p.1, count := p.2, overlap_with_top_unigrams := ov, score := p.2 + ov })

/-- Stable insertion for `high_value.sort(key=lambda x: (-x[3], -x[1]))`:
an element stays behind every element of strictly higher score, and
behind equal-score elements of count at least its own. -/
def insertScoreDesc (x : PhraseCand) : List PhraseCand → List PhraseCand
  | [] => [x]
  | y :: ys =>
    if x.score < y.score ∨ (x.score = y.score ∧ x.count ≤ y.count)
    then y :: insertScoreDesc x ys
    else x :: y :: ys

/-- Stable sort by descending `(score, count)` (Python `list.sort` is
stable). -/
def sortScoreDesc (l : List PhraseCand) : List PhraseCand :=
  l.foldl (fun acc x => insertScoreDesc x acc) []

/-- The modelled fields of the `summary` dict `analyze` returns. -/
structure Summary where
  total_pages : Nat
  pages_missing_title : List Str
  pages_missing_meta_description : List Str
  pages_missing_h1 : List Str
  thin_pages : List Str
  images_missing_alt : List (Str × List Str)
  broken_links : List (Str × List (Str × Nat))
  duplicate_titles : List (Str × Nat)
  duplicate_meta_descriptions : List (Str × Nat)
  top_words : Counter
  candidate_phrases : List PhraseCand
  per_page : List (Str × PageReport)
deriving DecidableEq, Repr

/-- `analyze(results)`, over a same-site classifier (the external
`is_same_domain` capability, called here with each page's own address
as first argument, exactly as the source does inside `analyze`). -/
def analyze (sameSite : Str → Str → Bool) (results : CrawlResult) : Summary :=
  let items := contentItems results
  let ons := contentRecords results
  let tw := mostCommon (wordCountsOf ons) 80
  { total_pages := results.length
    pages_missing_title := items.filterMap (fun p => if p.2.title = [] then some p.1 else none)
    pages_missing_meta_description :=
      items.filterMap (fun p => if p.2.meta_description = [] then some p.1 else none)
    pages_missing_h1 := items.filterMap (fun p => if p.2.h1s = [] then some p.1 else none)
    thin_pages := items.filterMap (fun p => if p.2.word_count < 300 then some p.1 else none)
    images_missing_alt := items.filterMap
      (fun p =>
        let ma := (p.2.images.filter (fun i => i.alt = [])).map (fun i => i.src)
        if ma ≠ [] then some (p.1, ma) else none)
    broken_links := items.filterMap
      (fun p =>
        let br := brokenOf sameSite results p.1 p.2
        if br ≠ [] then some (p.1, br) else none)
    duplicate_titles := (titleCountsOf ons).filter (fun p => decide (1 < p.2))
    duplicate_meta_descriptions := (metaCountsOf ons).filter (fun p => decide (1 < p.2))
    top_words := tw
    candidate_phrases :=
      (sortScoreDesc (scorePhrases tw (mostCommon (phraseCountsOf ons) 40))).take 40
    per_page := results.map (fun p => (p.1, reportOf p.2)) }

/-! ## `crawl` (lines 157–209)

The network and the HTML parser are external: a crawl runs against an
oracle `fetchO : Str → FetchRes` giving each address's fetch outcome,
with a 200-response carrying the parsed document of its body.  The
`ThreadPoolExecutor` round is sequentialized: the submission loop (which
checks the budget, checks and updates the visited set and increments
`pages_crawled`) runs to completion before any result is processed —
as in the source, where both loops run on the main thread — and
completions are processed in dispatch order (one admissible completion
order; the visited set and `pages_crawled` are not mutated during the
processing loop). -/

/-- Outcome of `fetch(url)`: a raised-and-caught transport error, or a
response with status, final URL and (for 200 bodies) parsed document. -/
inductive FetchRes where
  | failure (msg : Str)
  | response (status : Nat) (finalUrl : Str) (doc : Soup)
deriving Repr

/-- The link-collection step run for each anchor of a fetched 200 page:
normalize against the page's own address, keep same-site targets
(relative to the trimmed seed) not yet visited, not yet queued, and
within the remaining page budget. -/
def collectStep (sameSite : Str → Str → Bool) (startUrl : Str) (maxPages : Nat)
    (visited : List Str) (pages : Nat) (pageUrl : Str)
    (nr : List Str) (a : LinkRec) : List Str :=
  match normHref pageUrl a.href with
  | none => nr
  | some norm =>
    if sameSite startUrl norm ∧ norm ∉ visited ∧ norm ∉ nr ∧ nr.length + pages < maxPages
    then nr ++ [norm] else nr

/-- Process one completed fetch: build the results entry, and extend the
next round's frontier from a 200 page's anchors. -/
def processUrl (fetchO : Str → FetchRes) (sameSite : Str → Str → Bool)
    (startUrl : Str) (maxPages : Nat) (visited : List Str) (pages : Nat)
    (url : Str) (nr : List Str) : Entry × List Str :=
  match fetchO url with
  | .failure m => (.err m, nr)
  | .response s f doc =>
    if s ≠ 200 then (.http s f, nr)
    else
      let pg := extract_onpage doc
      (.page f pg, pg.links.foldl (collectStep sameSite startUrl maxPages visited pages url) nr)

/-- Process every scheduled fetch of a round, threading the frontier. -/
def processScheduled (fetchO : Str → FetchRes) (sameSite : Str → Str → Bool)
    (startUrl : Str) (maxPages : Nat) (visited : List Str) (pages : Nat) :
    List Str → List Str → CrawlResult × List Str
  | [], nr => ([], nr)
  | url :: rest, nr =>
    match processUrl fetchO sameSite startUrl maxPages visited pages url nr with
    | (e, nr2) =>
      match processScheduled fetchO sameSite startUrl maxPages visited pages rest nr2 with
      | (es, nr3) => ((url, e) :: es, nr3)

/-- The submission loop of one round: walk the frontier, breaking when
the budget is reached, skipping visited addresses, marking each
scheduled address visited before its fetch is dispatched and charging it
to `pages_crawled`.  Returns (scheduled, visited, pages). -/
def dispatch (maxPages : Nat) : List Str → List Str → Nat → List Str × List Str × Nat
  | [], visited, pages => ([], visited, pages)
  | url :: rest, visited, pages =>
    if maxPages ≤ pages then ([], visited, pages)
    else if url ∈ visited then dispatch maxPages rest visited pages
    else
      let r := dispatch maxPages rest (url :: visited) (pages + 1)
      (url :: r.1, r.2)

/-- The depth rounds: `for d in range(depth + 1)` with the budget break
at the top of each round. -/
def crawlRounds (fetchO : Str → FetchRes) (sameSite : Str → Str → Bool)
    (startUrl : Str) (maxPages : Nat) :
    Nat → List Str → List Str → Nat → CrawlResult
  | 0, _, _, _ => []
  | fuel + 1, toVisit, visited, pages =>
    if maxPages ≤ pages then []
    else
      let d := dispatch maxPages toVisit visited pages
      let pr := processScheduled fetchO sameSite startUrl maxPages d.2.1 d.2.2 d.1 []
      pr.1 ++ crawlRounds fetchO sameSite startUrl maxPages fuel pr.2 d.2.1 d.2.2

/-- `crawl(start_url, depth, max_pages)`: trim the seed's trailing
slashes, then run the rounds from the one-element frontier. -/
def crawl (fetchO : Str → FetchRes) (sameSite : Str → Str → Bool)
    (seed : Str) (depth maxPages : Nat) : CrawlResult :=
  let startUrl := pyRstripSlash seed
  crawlRounds fetchO sameSite startUrl maxPages (depth + 1) [startUrl] [] 0

/-! ## Spec-side definitions (for refinement claims)

These formalize sentences of the design document, to be compared
against the code-side functions above. -/

/-- Spec 4.3: trimmed `content` of the FIRST meta tag whose `name`
equals `nm` case-insensitively (and whose content attribute is present
and truthy); empty string when none matches. -/
def specMetaFirst (nm : Str) (metas : List MetaTag) : Str :=
  match metas.find? (fun t => decide (pyLower (t.name.getD []) = nm ∧ truthy t.content = true)) with
  | some t => pyStrip (t.content.getD [])
  | none => []

/-- The same rule at the LAST matching tag (what the code computes). -/
def specMetaLast (nm : Str) (metas : List MetaTag) : Str :=
  specMetaFirst nm metas.reverse

/-- Spec 4.5, phrase scoring with the unigram window as a parameter:
score each of the top 40 phrases by count plus overlap with the `k`
most frequent global unigrams, sort by descending score then descending
raw count, keep the top 40.  The spec sentence reads `k = 120`; the
code's `top_words` list is capped at 80 before the 120-wide window is
applied, so its effective `k` is 80. -/
def specCandidatePhrases (k : Nat) (results : CrawlResult) : List PhraseCand :=
  let ons := contentRecords results
  let uniset := (mostCommon (wordCountsOf ons) k).map Prod.fst
  let hv := (mostCommon (phraseCountsOf ons) 40).map
    (fun p =>
      let parts := pySplitWs p.1
      let ov := parts.countP (fun w => decide (w ∈ uniset))
      ({ phrase := p.1, count := p.2, overlap_with_top_unigrams := ov, score := p.2 + ov } : PhraseCand))
  (sortScoreDesc hv).take 40

/-- The number of success (200) pages of a result mapping whose
extracted title is non-empty and equals `t` exactly. -/
def countTitlePages (results : CrawlResult) (t : Str) : Nat :=
  (contentRecords results).countP (fun pg => decide (pg.title = t ∧ t ≠ []))

/-- The number of success (200) pages whose extracted meta description
is non-empty and equals `m` exactly. -/
def countMetaPages (results : CrawlResult) (m : Str) : Nat :=
  (contentRecords results).countP (fun pg => decide (pg.meta_description = m ∧ m ≠ []))

/-- The result mapping with every entry of the given address removed
(for stating that an entry contributes nothing to a global aggregate). -/
def removeKey (url : Str) (results : CrawlResult) : CrawlResult :=
  results.filter (fun p => decide (p.1 ≠ url))

/-! ## Concrete documents, worlds and result mappings used by
counterexamples and witnesses -/

/-- A parsed document with nothing in it. -/
def emptySoup : Soup :=
  { titleString := none, metas := [], canonicalLink := none, h1s := [], h2s := [],
    imgs := [], anchors := [], jsonldBlocks := [], bodyText := [] }

/-- A document whose only content is a list of anchor hrefs. -/
def soupLinking (hs : List Str) : Soup :=
  { emptySoup with anchors := hs.map (fun h => { href := some h, text := pystr "t" }) }

/-- A same-site classifier accepting everything (stand-in for the
external `is_same_domain` capability in concrete scenarios). -/
def allSame : Str → Str → Bool := fun _ _ => true

/-- C3 counterexample world: the seed page links to `c` before `b`, and
`b` is linked from nowhere else (every other address is unreachable). -/
def c3world : Str → FetchRes := fun u =>
  if u = pystr "http://x/a" then
    .response 200 (pystr "http://x/a") (soupLinking [pystr "c", pystr "b"])
  else if u = pystr "http://x/c" then .response 200 (pystr "http://x/c") emptySoup
  else if u = pystr "http://x/b" then .response 200 (pystr "http://x/b") emptySoup
  else .failure (pystr "unreachable")

/-- C3 witness world: the seed page links to `b` alone. -/
def c3worldW : Str → FetchRes := fun u =>
  if u = pystr "http://x/a" then
    .response 200 (pystr "http://x/a") (soupLinking [pystr "b"])
  else if u = pystr "http://x/b" then .response 200 (pystr "http://x/b") emptySoup
  else .failure (pystr "unreachable")

/-- A content page with the given title, description, headings, links
and body words (remaining fields empty, word count = number of words,
as `extract_onpage` computes it). -/
def pageWith (title meta : Str) (h1s : List Str) (links : List LinkRec)
    (words : List Str) : PageRecord :=
  { title := title, meta_description := meta, meta_robots := [], canonical := [],
    og := [], twitter := [], h1s := h1s, h2s := [], images := [], links := links,
    jsonld := [], word_count := words.length, words := words, body_text := [] }

/-- C5 counterexample document: two `description` metas (`A` then `B`)
and two `robots` metas (`index` then `noindex`). -/
def c5soup : Soup :=
  { emptySoup with metas :=
    [{ name := some (pystr "description"), property := none, content := some (pystr "A") },
     { name := some (pystr "description"), property := none, content := some (pystr "B") },
     { name := some (pystr "robots"), property := none, content := some (pystr "index") },
     { name := some (pystr "robots"), property := none, content := some (pystr "noindex") }] }

/-- 80 three-letter words, none of them stopwords. -/
def c6base : List Str :=
  [   pystr "zaa", pystr "zab", pystr "zac", pystr "zad", pystr "zae", pystr "zaf", pystr "zag", pystr "zah",
   pystr "zai", pystr "zaj", pystr "zak", pystr "zal", pystr "zam", pystr "zan", pystr "zao", pystr "zap",
   pystr "zaq", pystr "zar", pystr "zas", pystr "zat", pystr "zau", pystr "zav", pystr "zaw", pystr "zax",
   pystr "zay", pystr "zaz", pystr "zba", pystr "zbb", pystr "zbc", pystr "zbd", pystr "zbe", pystr "zbf",
   pystr "zbg", pystr "zbh", pystr "zbi", pystr "zbj", pystr "zbk", pystr "zbl", pystr "zbm", pystr "zbn",
   pystr "zbo", pystr "zbp", pystr "zbq", pystr "zbr", pystr "zbs", pystr "zbt", pystr "zbu", pystr "zbv",
   pystr "zbw", pystr "zbx", pystr "zby", pystr "zbz", pystr "zca", pystr "zcb", pystr "zcc", pystr "zcd",
   pystr "zce", pystr "zcf", pystr "zcg", pystr "zch", pystr "zci", pystr "zcj", pystr "zck", pystr "zcl",
   pystr "zcm", pystr "zcn", pystr "zco", pystr "zcp", pystr "zcq", pystr "zcr", pystr "zcs", pystr "zct",
   pystr "zcu", pystr "zcv", pystr "zcw", pystr "zcx", pystr "zcy", pystr "zcz", pystr "zda", pystr "zdb"]

/-- C6 counterexample page: each of the 80 filler words appears twice in
the body and the title word `qqq` once, so `qqq` is the 81st-ranked
unigram — inside the spec's 120-word window but outside the code's
80-entry `top_words` list. -/
def c6page : PageRecord :=
  pageWith (pystr "qqq") [] [] [] (c6base.flatMap (fun w => [w, w]) ++ [pystr "qqq"])

/-- C6 counterexample result mapping. -/
def c6results : CrawlResult :=
  [(pystr "http://x/a", .page (pystr "http://x/a") c6page)]

/-- C7 witness mapping: page `a` links to `b`; `b` is an HTTP 404. -/
def c7results : CrawlResult :=
  [(pystr "http://x/a", .page (pystr "http://x/a")
      (pageWith (pystr "A") [] [] [{ href := some (pystr "b"), text := pystr "B" }] [])),
   (pystr "http://x/b", .http 404 (pystr "http://x/b"))]

/-- C8 witness mapping: two pages titled `Home`, a third titled
`Home ` (trailing space), two sharing a meta description, plus an
HTTP-error entry and a transport-error entry. -/
def c8results : CrawlResult :=
  [(pystr "http://x/1", .page (pystr "http://x/1")
      (pageWith (pystr "Home") (pystr "Welcome") [] [] [])),
   (pystr "http://x/2", .page (pystr "http://x/2")
      (pageWith (pystr "Home") (pystr "Welcome") [] [] [])),
   (pystr "http://x/3", .page (pystr "http://x/3")
      (pageWith (pystr "Home ") (pystr "Other") [] [] [])),
   (pystr "http://x/4", .http 404 (pystr "http://x/4")),
   (pystr "http://x/5", .err (pystr "timeout"))]

/-- C9 witness mapping: a transport error, an HTTP error and a content
page whose fields would trip every content check. -/
def c9results : CrawlResult :=
  [(pystr "http://x/ok", .page (pystr "http://x/ok")
      (pageWith [] [] [] [] [pystr "lone", pystr "word"])),
   (pystr "http://x/down", .err (pystr "conn refused")),
   (pystr "http://x/gone", .http 410 (pystr "http://x/gone"))]


/-! ## Definitions supporting the `norm_url` idempotence analysis -/

/-- Re-attachment of a params component to a path (the `url` computed at the
top of `urlunparse`). -/
def ppJoin (p prm : Str) : Str := if prm ≠ [] then p ++ ';' :: prm else p

/-- The query part of an assembled URL: `'?' + query` when the query is
non-empty, nothing otherwise (the `url3` step of `urlunsplit`). -/
def optQ (q : Str) : Str := if q ≠ [] then '?' :: q else []

/-- The path/params split performed by `urlparse` for a `uses_params`
scheme. -/
def pathParams (x : Str) : Str × Str :=
  if ';' ∈ x then splitparams x else (x, [])

/-- The last `/`-segment of `pp` either contains no `;`, or the part after
its first `;` is non-empty.  This is the shape invariant that makes
`_splitparams` reattachable. -/
def lastSegOK (pp : Str) : Prop :=
  ∀ a b, lastSplitOn '/' pp = some (a, b) →
    ';' ∉ b ∨ ∃ b1 b2, splitOnFirst ';' b = some (b1, b2) ∧ b2 ≠ []

/-- Invariants satisfied by every `urlparse` result. -/
structure ParseInv (c : UParse) : Prop where
  netloc_delim : ∀ ch ∈ c.netloc, notNetlocDelim ch = true
  path_hash : '#' ∉ c.path
  path_qmark : '?' ∉ c.path
  params_hash : '#' ∉ c.params
  params_qmark : '?' ∉ c.params
  params_slash : '/' ∉ c.params
  query_hash : '#' ∉ c.query
  netloc_safe : ∀ ch ∈ c.netloc, isUnsafeUrlByte ch = false
  path_safe : ∀ ch ∈ c.path, isUnsafeUrlByte ch = false
  params_safe : ∀ ch ∈ c.params, isUnsafeUrlByte ch = false
  query_safe : ∀ ch ∈ c.query, isUnsafeUrlByte ch = false
  netloc_path : c.netloc ≠ [] → (c.path = [] ∧ c.params = []) ∨ c.path.take 1 = ['/']
  pp_stable : c.scheme ∈ usesParams → ';' ∈ ppJoin c.path c.params →
    splitparams (ppJoin c.path c.params) = (c.path, c.params)
  lastseg_ok : c.scheme ∈ usesParams → lastSegOK (ppJoin c.path c.params)
  noslash_params : c.scheme ∈ usesParams → '/' ∉ ppJoin c.path c.params →
    ';' ∈ ppJoin c.path c.params →
    splitOnFirst ';' (ppJoin c.path c.params) = some (c.path, c.params) ∧ c.params ≠ []

/-- The netloc-extraction step of `urlsplit` (`_splitnetloc` guarded by the
leading `//` test), applied to the post-scheme remainder. -/
def netSplit (url2 : Str) : Str × Str :=
  if url2.take 2 = ['/', '/']
  then ((url2.drop 2).takeWhile notNetlocDelim, (url2.drop 2).dropWhile notNetlocDelim)
  else ([], url2)

/-- The fragment split of `urlsplit`. -/
def fragSplit (url3 : Str) : Str × Str :=
  match splitOnFirst '#' url3 with
  | some (a, b) => (a, b)
  | none => (url3, [])

/-- The query split of `urlsplit`. -/
def querySplit (url4 : Str) : Str × Str :=
  match splitOnFirst '?' url4 with
  | some (a, b) => (a, b)
  | none => (url4, [])

/-- The scheme-selection step of `urlsplit` (found scheme, or the sanitized
default). -/
def schemeOf (url1 ds : Str) : Str × Str :=
  match schemeSplit url1 with
  | some (s, r) => (s, r)
  | none => (ds, url1)

/-! # Theorems -/

/-! ## Generic helper lemmas -/

theorem dropWhile_eq_nil_of_all {P : Char → Bool} {s : Str} (h : s.all P = true) :
    s.dropWhile P = [] := by
  induction s with
  | nil => rfl
  | cons a as ih =>
    simp only [List.all_cons, Bool.and_eq_true] at h
    simp [List.dropWhile, h.1, ih h.2]

theorem pyStrip_eq_nil_of_all {s : Str} (h : s.all pyIsSpace = true) : pyStrip s = [] := by
  unfold pyStrip pyStripP
  rw [dropWhile_eq_nil_of_all h]
  rfl

theorem urljoin_nil_right (base : Str) : urljoin base [] = base := by
  unfold urljoin
  by_cases hb : base = []
  · simp [hb]
  · simp [hb]



/-! ## C4: `norm_url` on empty and whitespace-only links -/

/-- C4: the claim reads "for every base address and every raw link
string that is empty or consists only of whitespace, `normalize(base,
rawLink)` returns null".  This is FALSE for whitespace-only links: a
one-space link passes the `if not link` check, is stripped to the empty
string, and `urljoin(base, '')` returns the base itself, which
`norm_url` then accepts.  Concretely,
`norm_url("http://example.com/a", " ") = "http://example.com/a"`. -/
theorem C4_counterexample :
    (pystr " ").all pyIsSpace = true ∧ pystr " " ≠ [] ∧
    norm_url (pystr "http://example.com/a") (pystr " ") = some (pystr "http://example.com/a") :=
  ⟨by decide, by decide, by decide⟩

/-- C4 (amended): `norm_url base rawLink` returns null when `rawLink`
is the empty string; when `rawLink` is non-empty but all whitespace, it
is stripped to empty, `urljoin` returns the base unchanged, and the
result is the base with its fragment dropped when the base's scheme is
`http(s)`, null otherwise. -/
theorem C4_whitespace_link (base ws : Str) (hne : ws ≠ [])
    (hsp : ws.all pyIsSpace = true) :
    norm_url base [] = none ∧
    norm_url base ws =
      (if (urlparse base []).scheme = pystr "http" ∨ (urlparse base []).scheme = pystr "https"
       then some (urlunparse { urlparse base [] with fragment := [] })
       else none) := by
  constructor
  · simp [norm_url]
  · have hstrip : pyStrip ws = [] := pyStrip_eq_nil_of_all hsp
    simp only [norm_url, if_neg hne, hstrip, urljoin_nil_right]
    norm_num [pyStartsWith]
    exact fun h => absurd h (by decide)

/-- C4 witness: instantiating the amended statement at a concrete base
with a fragment. -/
theorem C4_witness :
    norm_url (pystr "http://e.com/x#f") (pystr " ") = some (pystr "http://e.com/x") := by
  have h := (C4_whitespace_link (pystr "http://e.com/x#f") (pystr " ")
    (by decide) (by decide)).2
  rw [h]
  decide

/-! ## C5: meta description / robots extraction -/

/-- C5: the claim reads "the extractor's meta description field equals
the trimmed content attribute of the FIRST matching meta tag".  This is
FALSE: the extraction loop overwrites `meta_desc` at every matching
tag, so the LAST matching tag wins.  With two `description` metas `A`
then `B`, the code yields `B` while the first-match rule yields `A`. -/
theorem C5_counterexample :
    (extract_onpage c5soup).meta_description = pystr "B" ∧
    specMetaFirst (pystr "description") c5soup.metas = pystr "A" ∧
    (extract_onpage c5soup).meta_description ≠ specMetaFirst (pystr "description") c5soup.metas ∧
    (extract_onpage c5soup).meta_robots ≠ specMetaFirst (pystr "robots") c5soup.metas :=
  ⟨by decide, by decide, by decide, by decide⟩

/-- The extractor's overwriting fold over the meta tags computes the
value at the last matching tag. -/
theorem metaFold_overwrite (nm : Str) (metas : List MetaTag) (init : Str) :
    metas.foldl (fun acc tag =>
        if pyLower (tag.name.getD []) = nm ∧ truthy tag.content = true
        then pyStrip (tag.content.getD []) else acc) init =
      (match metas.reverse.find?
          (fun t => decide (pyLower (t.name.getD []) = nm ∧ truthy t.content = true)) with
       | some t => pyStrip (t.content.getD [])
       | none => init) := by
  induction metas generalizing init with
  | nil => rfl
  | cons a as ih =>
    rw [List.foldl_cons, ih, List.reverse_cons, List.find?_append]
    cases h : as.reverse.find?
        (fun t => decide (pyLower (t.name.getD []) = nm ∧ truthy t.content = true)) with
    | some t => simp
    | none =>
      by_cases hc : pyLower (a.name.getD []) = nm ∧ truthy a.content = true
      · simp [List.find?, hc]
      · simp [List.find?, hc]

theorem metaFold_eq_last (nm : Str) (metas : List MetaTag) :
    metas.foldl (fun acc tag =>
        if pyLower (tag.name.getD []) = nm ∧ truthy tag.content = true
        then pyStrip (tag.content.getD []) else acc) [] =
      specMetaLast nm metas := by
  unfold specMetaLast specMetaFirst
  exact metaFold_overwrite nm metas []

/-- C5 (amended): for every parsed document, the extractor's meta
description equals the trimmed `content` of the LAST meta tag whose
`name` equals `description` case-insensitively and whose `content` is
present and non-empty (empty string when no such tag exists); likewise
the robots field for `name` equal to `robots`. -/
theorem C5_meta_last_match (soup : Soup) :
    (extract_onpage soup).meta_description = specMetaLast (pystr "description") soup.metas ∧
    (extract_onpage soup).meta_robots = specMetaLast (pystr "robots") soup.metas :=
  ⟨metaFold_eq_last (pystr "description") soup.metas,
   metaFold_eq_last (pystr "robots") soup.metas⟩

/-! ## C6: candidate-phrase scoring -/

set_option maxRecDepth 100000 in
/-- C6: the claim reads "overlap is the number of the phrase's words
that appear among the 120 most frequent global unigrams".  This is
FALSE: the code intersects with `top_words[:120]`, but `top_words` is
`most_common(80)`, so the effective window is the 80 most frequent
unigrams.  On a mapping whose title word `qqq` is the 81st-ranked
unigram, the code scores the phrase `qqq` as `1` while the 120-window
rule of the claim scores it `2`. -/
theorem C6_counterexample :
    (analyze allSame c6results).candidate_phrases = [⟨pystr "qqq", 1, 0, 1⟩] ∧
    specCandidatePhrases 120 c6results = [⟨pystr "qqq", 1, 1, 2⟩] ∧
    (analyze allSame c6results).candidate_phrases ≠ specCandidatePhrases 120 c6results :=
  ⟨by decide, by decide, by decide⟩

/-- C6 (amended): the analyzer's candidate list equals the spec's
scoring rule with the unigram window at 80 (the `top_words` cap)
instead of 120: each of the top 40 phrases is scored count + overlap
with the 80 most frequent global unigrams, sorted by descending score,
ties by descending raw count, truncated to 40. -/
theorem C6_candidate_scoring (sameSite : Str → Str → Bool) (results : CrawlResult) :
    (analyze sameSite results).candidate_phrases = specCandidatePhrases 80 results := by
  unfold analyze specCandidatePhrases scorePhrases mostCommon
  simp only [List.take_take]
  norm_num

/-! ## Crawl lemmas -/

/-- Processing a round records exactly one entry per scheduled address,
keyed by the dispatched address, in order. -/
theorem processScheduled_keys (fetchO : Str → FetchRes) (sameSite : Str → Str → Bool)
    (startUrl : Str) (maxPages : Nat) (visited : List Str) (pages : Nat)
    (sched nr : List Str) :
    (processScheduled fetchO sameSite startUrl maxPages visited pages sched nr).1.map Prod.fst
      = sched := by
  induction sched generalizing nr with
  | nil => rfl
  | cons u rest ih =>
    simp only [processScheduled]
    rcases hp : processUrl fetchO sameSite startUrl maxPages visited pages u nr with ⟨e, nr2⟩
    rcases hs : processScheduled fetchO sameSite startUrl maxPages visited pages rest nr2
      with ⟨es, nr3⟩
    have h2 := ih nr2
    rw [hs] at h2
    simpa using h2

/-- The submission loop: the scheduled list counts against the budget,
is duplicate-free, avoids the incoming visited set, is marked visited,
and never pushes `pages_crawled` past `maxPages`. -/
theorem dispatch_spec (maxPages : Nat) :
    ∀ (tv visited : List Str) (pages : Nat),
    (dispatch maxPages tv visited pages).2.2
        = pages + (dispatch maxPages tv visited pages).1.length ∧
    (dispatch maxPages tv visited pages).1.Nodup ∧
    (∀ u ∈ (dispatch maxPages tv visited pages).1, u ∉ visited) ∧
    (∀ u, u ∈ (dispatch maxPages tv visited pages).2.1 ↔
      u ∈ visited ∨ u ∈ (dispatch maxPages tv visited pages).1) ∧
    (pages ≤ maxPages → (dispatch maxPages tv visited pages).2.2 ≤ maxPages) := by
  intro tv
  induction tv with
  | nil => intro visited pages; simp [dispatch]
  | cons t rest ih =>
    intro visited pages
    by_cases hb : maxPages ≤ pages
    · simp [dispatch, hb]
    · by_cases hv : t ∈ visited
      · simpa [dispatch, hb, hv] using ih visited pages
      · obtain ⟨ih1, ih2, ih3, ih4, ih5⟩ := ih (t :: visited) (pages + 1)
        simp only [dispatch, if_neg hb, if_neg hv]
        refine ⟨by simp only [List.length_cons]; omega, ?_, ?_, ?_, ?_⟩
        · exact List.nodup_cons.mpr ⟨fun hmem => (ih3 t hmem) (List.mem_cons_self t visited), ih2⟩
        · intro u hu
          rcases List.mem_cons.mp hu with rfl | hu2
          · exact hv
          · exact fun hmem => (ih3 u hu2) (List.mem_cons_of_mem t hmem)
        · intro u
          rw [ih4 u]
          constructor
          · rintro (h | h)
            · rcases List.mem_cons.mp h with rfl | h2
              · exact Or.inr (List.mem_cons_self _ _)
              · exact Or.inl h2
            · exact Or.inr (List.mem_cons_of_mem _ h)
          · rintro (h | h)
            · exact Or.inl (List.mem_cons_of_mem _ h)
            · rcases List.mem_cons.mp h with rfl | h2
              · exact Or.inl (List.mem_cons_self _ _)
              · exact Or.inr h2
        · intro _
          exact ih5 (by omega)

/-- The crawl rounds stay within the remaining budget, produce
duplicate-free keys, and never record an already-visited address. -/
theorem crawlRounds_spec (fetchO : Str → FetchRes) (sameSite : Str → Str → Bool)
    (startUrl : Str) (maxPages : Nat) :
    ∀ (fuel : Nat) (tv visited : List Str) (pages : Nat), pages ≤ maxPages →
    (crawlRounds fetchO sameSite startUrl maxPages fuel tv visited pages).length
        ≤ maxPages - pages ∧
    ((crawlRounds fetchO sameSite startUrl maxPages fuel tv visited pages).map Prod.fst).Nodup ∧
    (∀ u ∈ (crawlRounds fetchO sameSite startUrl maxPages fuel tv visited pages).map Prod.fst,
      u ∉ visited) := by
  intro fuel
  induction fuel with
  | zero => intro tv visited pages _; simp [crawlRounds]
  | succ f ih =>
    intro tv visited pages hpg
    by_cases hb : maxPages ≤ pages
    · simp [crawlRounds, hb]
    · obtain ⟨hd1, hd2, hd3, hd4, hd5⟩ := dispatch_spec maxPages tv visited pages
      simp only [crawlRounds, if_neg hb]
      rcases hds : dispatch maxPages tv visited pages with ⟨sched, visited2, pages2⟩
      rw [hds] at hd1 hd2 hd3 hd4 hd5
      simp only at hd1 hd2 hd3 hd4 hd5
      rcases hps : processScheduled fetchO sameSite startUrl maxPages visited2 pages2 sched []
        with ⟨entries, nr⟩
      have hkeys : entries.map Prod.fst = sched := by
        have := processScheduled_keys fetchO sameSite startUrl maxPages visited2 pages2 sched []
        rw [hps] at this
        simpa using this
      have hlen : entries.length = sched.length := by
        rw [← hkeys, List.length_map]
      have hp2 : pages2 ≤ maxPages := hd5 (Nat.le_of_lt (Nat.lt_of_not_le hb))
      obtain ⟨ih1, ih2, ih3⟩ := ih nr visited2 pages2 hp2
      simp only [List.length_append, List.map_append, hkeys]
      refine ⟨by omega, ?_, ?_⟩
      · rw [List.nodup_append]
        refine ⟨hd2, ih2, ?_⟩
        intro u hu hu2
        exact (ih3 u hu2) ((hd4 u).mpr (Or.inr hu))
      · intro u hu
        rcases List.mem_append.mp hu with h | h
        · exact hd3 u h
        · intro hvis
          exact (ih3 u h) ((hd4 u).mpr (Or.inl hvis))

/-- The link-collection fold respects the page budget: if the frontier
plus `pages_crawled` fits in the budget before, it still fits after. -/
theorem collect_fold_bound (sameSite : Str → Str → Bool) (startUrl : Str)
    (maxPages : Nat) (visited : List Str) (pages : Nat) (pageUrl : Str) :
    ∀ (links : List LinkRec) (nr : List Str), nr.length + pages ≤ maxPages →
    (links.foldl (collectStep sameSite startUrl maxPages visited pages pageUrl) nr).length
      + pages ≤ maxPages := by
  intro links
  induction links with
  | nil => intro nr h; simpa using h
  | cons a rest ih =>
    intro nr h
    simp only [List.foldl_cons]
    apply ih
    unfold collectStep
    split
    · exact h
    · split
      · rename_i hcond
        obtain ⟨-, -, -, hlt⟩ := hcond
        simp only [List.length_append, List.length_cons, List.length_nil]
        omega
      · exact h

/-- Processing one address keeps the frontier within the budget. -/
theorem processUrl_nr_bound (fetchO : Str → FetchRes) (sameSite : Str → Str → Bool)
    (startUrl : Str) (maxPages : Nat) (visited : List Str) (pages : Nat)
    (url : Str) (nr : List Str) (h : nr.length + pages ≤ maxPages) :
    (processUrl fetchO sameSite startUrl maxPages visited pages url nr).2.length
      + pages ≤ maxPages := by
  unfold processUrl
  split
  · exact h
  · split
    · exact h
    · exact collect_fold_bound sameSite startUrl maxPages visited pages url _ nr h

/-- The submission loop schedules every frontier address that is not
yet visited, provided the whole frontier fits in the remaining budget. -/
theorem dispatch_mem (maxPages : Nat) :
    ∀ (tv visited : List Str) (pages : Nat) (u : Str),
    u ∈ tv → u ∉ visited → pages + tv.length ≤ maxPages →
    u ∈ (dispatch maxPages tv visited pages).1 := by
  intro tv
  induction tv with
  | nil => intro _ _ _ h; cases h
  | cons t rest ih =>
    intro visited pages u hu hnv hbud
    simp only [List.length_cons] at hbud
    have hb : ¬ maxPages ≤ pages := by omega
    by_cases hv : t ∈ visited
    · have hut : u ≠ t := fun h => hnv (h ▸ hv)
      have hur : u ∈ rest := by
        rcases List.mem_cons.mp hu with rfl | h2
        · exact absurd hv hnv
        · exact h2
      simpa [dispatch, hb, hv] using ih visited pages u hur hnv (by omega)
    · simp only [dispatch, if_neg hb, if_neg hv]
      rcases List.mem_cons.mp hu with rfl | h2
      · exact List.mem_cons_self _ _
      · by_cases hut : u = t
        · exact hut ▸ List.mem_cons_self _ _
        · refine List.mem_cons_of_mem _ ?_
          exact ih (t :: visited) (pages + 1) u h2
            (fun hm => (List.mem_cons.mp hm).elim hut hnv) (by omega)

/-! ## C1: the result mapping respects the page budget -/

/-- C1: for every crawl invocation with `maxPages` positive, the result
mapping has at most `maxPages` entries (the submission loop charges one
budget slot per scheduled address before fetching, and stops at the
cap; each scheduled address yields exactly one entry). -/
theorem C1_results_within_budget (fetchO : Str → FetchRes) (sameSite : Str → Str → Bool)
    (seed : Str) (depth maxPages : Nat) (hpos : 0 < maxPages) :
    (crawl fetchO sameSite seed depth maxPages).length ≤ maxPages := by
  have h := (crawlRounds_spec fetchO sameSite (pyRstripSlash seed) maxPages (depth + 1)
    [pyRstripSlash seed] [] 0 (Nat.zero_le _)).1
  simpa [crawl] using h

/-- C1 witness: a concrete two-page crawl against a three-page site. -/
theorem C1_witness :
    (crawl c3world allSame (pystr "http://x/a") 1 2).length ≤ 2 :=
  C1_results_within_budget c3world allSame (pystr "http://x/a") 1 2 (by decide)

/-! ## C2: at-most-once fetch per address -/

/-- C2: each address is fetched at most once — the dispatcher marks an
address visited before submitting its fetch and never submits an
address already in the visited set, so the result mapping's keys (one
per dispatched fetch, in dispatch order) contain no duplicates, even
when the same link is discovered repeatedly or the link graph is
cyclic. -/
theorem C2_at_most_once (fetchO : Str → FetchRes) (sameSite : Str → Str → Bool)
    (seed : Str) (depth maxPages : Nat) :
    ((crawl fetchO sameSite seed depth maxPages).map Prod.fst).Nodup := by
  have h := (crawlRounds_spec fetchO sameSite (pyRstripSlash seed) maxPages (depth + 1)
    [pyRstripSlash seed] [] 0 (Nat.zero_le _)).2.1
  simpa [crawl] using h

/-! ## C3: depth-ordering of discovery -/

/-- C3: the claim reads "if B is only discoverable through a link on
the seed page A and maxPages is at least 2, then with maxDepth = 0, B
is not in the results, and with maxDepth ≥ 1 it is".  The second half
is FALSE: the round-0 link collection caps the next frontier by
`len(next_round) + pages_crawled < max_pages`, so with `maxPages = 2`
and the seed linking to `c` before `b`, the budget slot goes to `c` and
`b` is never fetched although `maxDepth = 1` and `maxPages = 2`.  The
conjuncts below record that the premises of the claim hold in the
`c3world` scenario (the seed's page links to B, B is same-site, every
other page has no links at all) and that B is nonetheless absent. -/
theorem C3_counterexample :
    normHref (pystr "http://x/a") (some (pystr "b")) = some (pystr "http://x/b") ∧
    allSame (pystr "http://x/a") (pystr "http://x/b") = true ∧
    (extract_onpage (soupLinking [pystr "c", pystr "b"])).links =
      [{ href := some (pystr "c"), text := pystr "t" },
       { href := some (pystr "b"), text := pystr "t" }] ∧
    (extract_onpage emptySoup).links = [] ∧
    pystr "http://x/b" ∉ (crawl c3world allSame (pystr "http://x/a") 1 2).map Prod.fst :=
  ⟨by decide, by decide, by decide, by decide, by decide⟩

/-- C3 (amended): with `maxPages ≥ 2` and `B` distinct from the trimmed
seed: at `maxDepth = 0` the address `B` is never a key of the results
(only the seed is fetched); and at `maxDepth ≥ 1`, whenever `B` is
admitted into the round-0 frontier (i.e. `B` is discovered from the
seed's page within the page budget — the condition the original claim
omitted), `B` is a key of the results. -/
theorem C3_depth_reachability (fetchO : Str → FetchRes) (sameSite : Str → Str → Bool)
    (seed B : Str) (depth maxPages : Nat) (hmp : 2 ≤ maxPages)
    (hB : B ≠ pyRstripSlash seed) :
    (depth = 0 → B ∉ (crawl fetchO sameSite seed depth maxPages).map Prod.fst) ∧
    (1 ≤ depth →
      B ∈ (processUrl fetchO sameSite (pyRstripSlash seed) maxPages
        [pyRstripSlash seed] 1 (pyRstripSlash seed) []).2 →
      B ∈ (crawl fetchO sameSite seed depth maxPages).map Prod.fst) := by
  set s0 := pyRstripSlash seed with hs0
  have hble : ¬ maxPages ≤ 0 := by omega
  have hd0 : dispatch maxPages [s0] [] 0 = ([s0], [s0], 1) := by
    simp [dispatch, hble]
  constructor
  · rintro rfl hmem
    simp only [crawl, crawlRounds, if_neg hble, hd0] at hmem
    rcases hps : processScheduled fetchO sameSite s0 maxPages [s0] 1 [s0] []
      with ⟨entries, nr⟩
    rw [hps] at hmem
    have hkeys : entries.map Prod.fst = [s0] := by
      have := processScheduled_keys fetchO sameSite s0 maxPages [s0] 1 [s0] []
      rw [hps] at this
      simpa using this
    simp only [crawlRounds, List.append_nil, hkeys] at hmem
    exact hB (by simpa using hmem)
  · intro hdep hfront
    obtain ⟨d2, rfl⟩ : ∃ d2, depth = d2 + 1 := ⟨depth - 1, by omega⟩
    simp only [crawl, crawlRounds, if_neg hble, hd0]
    rcases hps : processScheduled fetchO sameSite s0 maxPages [s0] 1 [s0] []
      with ⟨entries, nr⟩
    have hnr : nr = (processUrl fetchO sameSite s0 maxPages [s0] 1 s0 []).2 := by
      rcases hpu : processUrl fetchO sameSite s0 maxPages [s0] 1 s0 [] with ⟨e, nr2⟩
      simp only [processScheduled, hpu, processScheduled] at hps
      exact (congrArg Prod.snd hps).symm ▸ rfl
    have hfront2 : B ∈ nr := hnr ▸ hfront
    have hnrlen : nr.length + 1 ≤ maxPages := by
      have := processUrl_nr_bound fetchO sameSite s0 maxPages [s0] 1 s0 []
        (by simpa using (by omega : 0 + 1 ≤ maxPages))
      rw [← hnr] at this
      exact this
    have hble1 : ¬ maxPages ≤ 1 := by omega
    have hBd : B ∈ (dispatch maxPages nr [s0] 1).1 :=
      dispatch_mem maxPages nr [s0] 1 B hfront2 (by simpa using hB) (by omega)
    simp only [List.map_append, List.mem_append]
    right
    simp only [crawlRounds, if_neg hble1]
    rcases hds : dispatch maxPages nr [s0] 1 with ⟨sched1, visited2, pages2⟩
    rw [hds] at hBd
    simp only at hBd
    rcases hps2 : processScheduled fetchO sameSite s0 maxPages visited2 pages2 sched1 []
      with ⟨entries2, nr2⟩
    have hkeys2 : entries2.map Prod.fst = sched1 := by
      have := processScheduled_keys fetchO sameSite s0 maxPages visited2 pages2 sched1 []
      rw [hps2] at this
      simpa using this
    simp only [List.map_append, List.mem_append]
    left
    rw [hkeys2]
    exact hBd

/-- C3 witness: against a world where the seed page links only to `b`
and the budget admits it, `b` is absent at depth 0 and present at
depth 1. -/
theorem C3_witness :
    pystr "http://x/b" ∉ (crawl c3worldW allSame (pystr "http://x/a") 0 2).map Prod.fst ∧
    pystr "http://x/b" ∈ (crawl c3worldW allSame (pystr "http://x/a") 1 2).map Prod.fst := by
  constructor
  · exact (C3_depth_reachability c3worldW allSame (pystr "http://x/a") (pystr "http://x/b")
      0 2 (by decide) (by decide)).1 rfl
  · exact (C3_depth_reachability c3worldW allSame (pystr "http://x/a") (pystr "http://x/b")
      1 2 (by decide) (by decide)).2 (by decide) (by decide)

/-! ## Association-list lemmas -/

theorem lookupA_eq_of_mem {beta : Type} {l : List (Str × beta)} {k : Str} {v : beta}
    (hnd : (l.map Prod.fst).Nodup) (hmem : (k, v) ∈ l) : lookupA l k = some v := by
  induction l with
  | nil => cases hmem
  | cons p rest ih =>
    rcases p with ⟨a, b⟩
    simp only [List.map_cons, List.nodup_cons] at hnd
    rcases List.mem_cons.mp hmem with heq | h2
    · cases heq
      simp [lookupA]
    · have hk : a ≠ k := by
        intro he
        exact hnd.1 (he ▸ List.mem_map_of_mem Prod.fst h2)
      simp only [lookupA, if_neg hk]
      exact ih hnd.2 h2

theorem lookupA_eq_none_of_not_mem {beta : Type} {l : List (Str × beta)} {k : Str}
    (h : k ∉ l.map Prod.fst) : lookupA l k = none := by
  induction l with
  | nil => rfl
  | cons p rest ih =>
    rcases p with ⟨a, b⟩
    simp only [List.map_cons, List.mem_cons, not_or] at h
    have hak : ¬ (a = k) := fun he => h.1 he.symm
    simp only [lookupA, if_neg hak]
    exact ih h.2

theorem mem_unique_of_nodup {beta : Type} {l : List (Str × beta)} {k : Str} {v w : beta}
    (hnd : (l.map Prod.fst).Nodup) (hv : (k, v) ∈ l) (hw : (k, w) ∈ l) : v = w := by
  have h1 := lookupA_eq_of_mem hnd hv
  have h2 := lookupA_eq_of_mem hnd hw
  rw [h1] at h2
  exact Option.some.inj h2

/-- Key-preserving `filterMap`s keep a sublist of the keys. -/
theorem filterMap_keys_sublist {alpha beta : Type} (f : Str × alpha → Option (Str × beta))
    (hf : ∀ p q, f p = some q → q.1 = p.1) (l : List (Str × alpha)) :
    ((l.filterMap f).map Prod.fst).Sublist (l.map Prod.fst) := by
  induction l with
  | nil => simp
  | cons p rest ih =>
    cases hfp : f p with
    | none =>
      simp only [List.filterMap_cons, hfp, List.map_cons]
      exact ih.cons p.1
    | some q =>
      simp only [List.filterMap_cons, hfp, List.map_cons, hf p q hfp]
      exact ih.cons₂ p.1

theorem lookupA_none_iff {beta : Type} {l : List (Str × beta)} {k : Str} :
    lookupA l k = none ↔ k ∉ l.map Prod.fst := by
  constructor
  · intro h hmem
    induction l with
    | nil => cases hmem
    | cons p rest ih =>
      rcases p with ⟨a, b⟩
      by_cases hak : a = k
      · simp [lookupA, hak] at h
      · simp only [lookupA, if_neg hak] at h
        simp only [List.map_cons, List.mem_cons] at hmem
        rcases hmem with heq | h2
        · exact hak heq.symm
        · exact ih h h2
  · exact lookupA_eq_none_of_not_mem

/-- Looking a key up in a filtered association list with unique keys:
the present case. -/
theorem lookupA_filter_some {beta : Type} (P : Str × beta → Bool) {l : List (Str × beta)}
    {k : Str} {v : beta} (hnd : (l.map Prod.fst).Nodup) (hlk : lookupA l k = some v) :
    lookupA (l.filter P) k = (if P (k, v) then some v else none) := by
  induction l with
  | nil => cases hlk
  | cons p rest ih =>
    rcases p with ⟨a, b⟩
    simp only [List.map_cons, List.nodup_cons] at hnd
    by_cases hak : a = k
    · subst hak
      have hbv : b = v := by simpa [lookupA] using hlk
      subst hbv
      by_cases hp : P (a, b) = true
      · rw [List.filter_cons, if_pos hp]
        simp [lookupA, hp]
      · rw [List.filter_cons, if_neg hp, if_neg hp]
        apply lookupA_eq_none_of_not_mem
        intro hmem
        exact hnd.1 (((List.filter_sublist _).map Prod.fst).subset hmem)
    · simp only [lookupA, if_neg hak] at hlk
      have hrec := ih hnd.2 hlk
      by_cases hp : P (a, b) = true
      · rw [List.filter_cons, if_pos hp]
        simpa [lookupA, if_neg hak] using hrec
      · rw [List.filter_cons, if_neg hp]
        exact hrec

/-- Looking a key up in a filtered association list: the absent case. -/
theorem lookupA_filter_none {beta : Type} (P : Str × beta → Bool) {l : List (Str × beta)}
    {k : Str} (hlk : lookupA l k = none) : lookupA (l.filter P) k = none := by
  apply lookupA_eq_none_of_not_mem
  intro hmem
  exact (lookupA_none_iff.mp hlk) (((List.filter_sublist _).map Prod.fst).subset hmem)

/-! ## Broken-link fold lemmas -/

theorem brokenStep_mono (sameSite : Str → Str → Bool) (results : CrawlResult) (url : Str)
    (acc : List (Str × Nat)) (a : LinkRec) (x : Str × Nat) (hx : x ∈ acc) :
    x ∈ brokenStep sameSite results url acc a := by
  unfold brokenStep
  split
  · exact hx
  · split
    · split
      · split
        · split
          · exact List.mem_append_left _ hx
          · exact hx
        · exact hx
      · exact hx
    · exact hx

theorem broken_fold_mono (sameSite : Str → Str → Bool) (results : CrawlResult) (url : Str) :
    ∀ (links : List LinkRec) (acc : List (Str × Nat)) (x : Str × Nat), x ∈ acc →
    x ∈ links.foldl (brokenStep sameSite results url) acc := by
  intro links
  induction links with
  | nil => intro acc x hx; exact hx
  | cons a rest ih =>
    intro acc x hx
    exact ih _ x (brokenStep_mono sameSite results url acc a x hx)

theorem broken_fold_mem (sameSite : Str → Str → Bool) (results : CrawlResult) (url : Str)
    {B : Str} {s : Nat} {a : LinkRec} (rr : Entry)
    (hnorm : normHref url a.href = some B) (hsite : sameSite url B = true)
    (hlook : lookupA results B = some rr) (hhttp : entryHttpGet rr = some s)
    (hs0 : s ≠ 0) (hs200 : s ≠ 200) :
    ∀ (links : List LinkRec) (acc : List (Str × Nat)), a ∈ links →
    (B, s) ∈ links.foldl (brokenStep sameSite results url) acc := by
  intro links
  induction links with
  | nil => intro acc h; cases h
  | cons hd rest ih =>
    intro acc hmem
    rcases List.mem_cons.mp hmem with rfl | h2
    · simp only [List.foldl_cons]
      apply broken_fold_mono
      unfold brokenStep
      simp only [hnorm, hsite, hlook, hhttp, if_true]
      rw [if_pos (⟨hs0, hs200⟩ : s ≠ 0 ∧ s ≠ 200)]
      exact List.mem_append_right _ (List.mem_singleton.mpr rfl)
    · simp only [List.foldl_cons]
      exact ih _ h2

/-! ## Content-item lemmas -/

theorem mem_contentItems_of_mem {results : CrawlResult} {url fU : Str} {pg : PageRecord}
    (h : (url, Entry.page fU pg) ∈ results) : (url, pg) ∈ contentItems results :=
  List.mem_filterMap.mpr ⟨(url, Entry.page fU pg), h, rfl⟩

theorem mem_contentItems_elim {results : CrawlResult} {p : Str × PageRecord}
    (h : p ∈ contentItems results) :
    ∃ fU, (p.1, Entry.page fU p.2) ∈ results := by
  rcases List.mem_filterMap.mp h with ⟨q, hq, hfq⟩
  rcases q with ⟨u, e⟩
  cases e with
  | err m => cases hfq
  | http s f => cases hfq
  | page f pg =>
    simp only [Option.some.injEq] at hfq
    exact ⟨f, by rw [← hfq]; exact hq⟩

theorem contentItems_keys_sublist (results : CrawlResult) :
    ((contentItems results).map Prod.fst).Sublist (results.map Prod.fst) := by
  apply filterMap_keys_sublist
  intro p q hq
  rcases p with ⟨u, e⟩
  cases e with
  | err m => cases hq
  | http s f => cases hq
  | page f pg => simp only [Option.some.injEq] at hq; rw [← hq]

/-! ## C7: broken-link detection -/

/-- C7: for every result mapping (unique keys, as a dict has) in which
page `A`'s anchor list has a link normalizing against `A` to `B`, `B`
is same-site relative to `A`, and `B`'s entry is an HTTP error with
status 404, the analyzer's broken-links output has an entry under `A`
containing `(B, 404)`. -/
theorem C7_broken_link_detection (sameSite : Str → Str → Bool) (results : CrawlResult)
    (A B fA fB : Str) (pgA : PageRecord) (a : LinkRec)
    (hnd : (results.map Prod.fst).Nodup)
    (hA : (A, Entry.page fA pgA) ∈ results)
    (ha : a ∈ pgA.links)
    (hnorm : normHref A a.href = some B)
    (hsite : sameSite A B = true)
    (hB : (B, Entry.http 404 fB) ∈ results) :
    ∃ br, lookupA (analyze sameSite results).broken_links A = some br ∧ (B, 404) ∈ br := by
  have hlookB : lookupA results B = some (Entry.http 404 fB) := lookupA_eq_of_mem hnd hB
  have hmemb : (B, 404) ∈ brokenOf sameSite results A pgA :=
    broken_fold_mem sameSite results A (Entry.http 404 fB) hnorm hsite hlookB rfl
      (by decide) (by decide) pgA.links [] ha
  have hne : brokenOf sameSite results A pgA ≠ [] := List.ne_nil_of_mem hmemb
  have hitems : (A, pgA) ∈ contentItems results := mem_contentItems_of_mem hA
  refine ⟨brokenOf sameSite results A pgA, ?_, hmemb⟩
  have hbl : (A, brokenOf sameSite results A pgA) ∈ (analyze sameSite results).broken_links := by
    simp only [analyze]
    exact List.mem_filterMap.mpr ⟨(A, pgA), hitems, by simp [hne]⟩
  apply lookupA_eq_of_mem _ hbl
  have hsub : (((analyze sameSite results).broken_links).map Prod.fst).Sublist
      ((contentItems results).map Prod.fst) := by
    simp only [analyze]
    apply filterMap_keys_sublist
    intro p q hq
    by_cases hbr : brokenOf sameSite results p.1 p.2 ≠ []
    · rw [if_pos hbr] at hq
      cases hq
      rfl
    · simp [hbr] at hq
  exact ((hsub.trans (contentItems_keys_sublist results)).nodup hnd)

/-- C7 witness: page `a` links to `b` and `b` is a 404. -/
theorem C7_witness :
    ∃ br, lookupA (analyze allSame c7results).broken_links (pystr "http://x/a") = some br ∧
      (pystr "http://x/b", 404) ∈ br :=
  C7_broken_link_detection allSame c7results (pystr "http://x/a") (pystr "http://x/b")
    (pystr "http://x/a") (pystr "http://x/b")
    (pageWith (pystr "A") [] [] [{ href := some (pystr "b"), text := pystr "B" }] [])
    { href := some (pystr "b"), text := pystr "B" }
    (by decide) (by decide) (by decide) (by decide) (by decide) (by decide)

/-! ## Counter lemmas -/

theorem lookupA_counterAdd (c : Counter) (k k2 : Str) :
    lookupA (counterAdd c k) k2 =
      (if k2 = k then some ((lookupA c k2).getD 0 + 1) else lookupA c k2) := by
  induction c with
  | nil =>
    by_cases h : k2 = k
    · subst h; simp [counterAdd, lookupA]
    · have h2 : ¬ (k = k2) := fun he => h he.symm
      simp [counterAdd, lookupA, h, h2]
  | cons p rest ih =>
    rcases p with ⟨a, n⟩
    by_cases hak : a = k
    · subst hak
      simp only [counterAdd, if_pos rfl]
      by_cases h2 : a = k2
      · subst h2; simp [lookupA]
      · have h3 : ¬ (k2 = a) := fun he => h2 he.symm
        simp [lookupA, h2, h3]
    · simp only [counterAdd, if_neg hak]
      by_cases h2 : a = k2
      · subst h2
        simp [lookupA, hak]
      · simp [lookupA, h2, ih]

theorem counter_fold_lookup (ws : List Str) :
    ∀ (acc : Counter) (k : Str),
    lookupA (ws.foldl counterAdd acc) k =
      (if k ∈ ws ∨ (lookupA acc k).isSome = true
       then some ((lookupA acc k).getD 0 + ws.count k) else none) := by
  induction ws with
  | nil =>
    intro acc k
    cases h : lookupA acc k <;> simp [h]
  | cons w ws ih =>
    intro acc k
    rw [List.foldl_cons, ih]
    by_cases hkw : k = w
    · subst hkw
      simp only [lookupA_counterAdd, if_pos rfl, List.count_cons, List.mem_cons,
        true_or, if_pos, Option.isSome_some, or_true, beq_self_eq_true, if_true]
      cases h : lookupA acc k <;> simp [h] <;> omega
    · have hbeq : (w == k) = false := beq_eq_false_iff_ne.mpr (fun he => hkw he.symm)
      simp only [lookupA_counterAdd, if_neg hkw, List.count_cons, hbeq, Bool.false_eq_true,
        if_false, Nat.add_zero, List.mem_cons]
      have heq : ((k = w ∨ k ∈ ws) ∨ (lookupA acc k).isSome = true) ↔
          (k ∈ ws ∨ (lookupA acc k).isSome = true) := by
        constructor
        · rintro ((h | h) | h)
          · exact absurd h hkw
          · exact Or.inl h
          · exact Or.inr h
        · rintro (h | h)
          · exact Or.inl (Or.inr h)
          · exact Or.inr h
      rw [if_congr heq rfl rfl]

theorem counterAdd_keys (c : Counter) (k : Str) :
    (counterAdd c k).map Prod.fst =
      (if k ∈ c.map Prod.fst then c.map Prod.fst else c.map Prod.fst ++ [k]) := by
  induction c with
  | nil => simp [counterAdd]
  | cons p rest ih =>
    rcases p with ⟨a, n⟩
    by_cases hak : a = k
    · subst hak
      simp [counterAdd]
    · have h2 : ¬ (k = a) := fun he => hak he.symm
      simp only [counterAdd, if_neg hak, List.map_cons, List.mem_cons, h2, false_or, ih]
      by_cases hm : k ∈ rest.map Prod.fst <;> simp [hm]

theorem counter_fold_keys_nodup (ws : List Str) :
    ∀ (acc : Counter), (acc.map Prod.fst).Nodup →
    ((ws.foldl counterAdd acc).map Prod.fst).Nodup := by
  induction ws with
  | nil => intro acc h; exact h
  | cons w ws ih =>
    intro acc h
    rw [List.foldl_cons]
    apply ih
    rw [counterAdd_keys]
    by_cases hm : w ∈ acc.map Prod.fst
    · simpa [hm] using h
    · simp only [hm, if_false]
      simp [List.nodup_append, h, hm]

/-- The field-counting fold of `analyze` (titles / meta descriptions)
is the counter of the non-empty field values, in page order. -/
theorem fieldCounts_eq_fold (f : PageRecord → Str) (ons : List PageRecord) :
    ∀ acc, ons.foldl (fun c pg => if f pg ≠ [] then counterAdd c (f pg) else c) acc =
      (ons.filterMap (fun pg => if f pg ≠ [] then some (f pg) else none)).foldl counterAdd acc := by
  induction ons with
  | nil => intro acc; rfl
  | cons pg rest ih =>
    intro acc
    by_cases hp : f pg ≠ []
    · simp only [List.foldl_cons, List.filterMap_cons, if_pos hp]
      exact ih (counterAdd acc (f pg))
    · simp only [List.foldl_cons, List.filterMap_cons, if_neg hp]
      exact ih acc

theorem count_filterMap_field (f : PageRecord → Str) (ons : List PageRecord) (t : Str) :
    (ons.filterMap (fun pg => if f pg ≠ [] then some (f pg) else none)).count t =
      ons.countP (fun pg => decide (f pg = t ∧ t ≠ [])) := by
  induction ons with
  | nil => rfl
  | cons pg rest ih =>
    rw [List.filterMap_cons]
    by_cases hp : f pg ≠ []
    · rw [if_pos hp, List.count_cons, ih, List.countP_cons]
      by_cases ht : f pg = t
      · have hb : (f pg == t) = true := beq_iff_eq.mpr ht
        have hd : decide (f pg = t ∧ t ≠ []) = true :=
          decide_eq_true ⟨ht, ht ▸ hp⟩
        rw [hb, hd]
      · have hb : (f pg == t) = false := beq_eq_false_iff_ne.mpr ht
        have hd : decide (f pg = t ∧ t ≠ []) = false :=
          decide_eq_false (fun h => ht h.1)
        rw [hb, hd]
    · rw [if_neg hp, ih, List.countP_cons]
      have hd : decide (f pg = t ∧ t ≠ []) = false := by
        apply decide_eq_false
        intro h
        simp only [not_not] at hp
        exact h.2 (hp ▸ h.1.symm)
      rw [hd]
      simp

/-- Count of `t` among non-empty `f`-values, as a membership-guarded
option (what a counter lookup yields). -/
theorem field_counter_lookup (f : PageRecord → Str) (ons : List PageRecord) (t : Str) :
    lookupA (ons.foldl (fun c pg => if f pg ≠ [] then counterAdd c (f pg) else c) []) t =
      (if 1 ≤ ons.countP (fun pg => decide (f pg = t ∧ t ≠ []))
       then some (ons.countP (fun pg => decide (f pg = t ∧ t ≠ []))) else none) := by
  rw [fieldCounts_eq_fold, counter_fold_lookup]
  have hcnt := count_filterMap_field f ons t
  have hmem : t ∈ ons.filterMap (fun pg => if f pg ≠ [] then some (f pg) else none) ↔
      1 ≤ ons.countP (fun pg => decide (f pg = t ∧ t ≠ [])) := by
    rw [← hcnt]
    constructor
    · intro h
      exact List.count_pos_iff.mpr h
    · intro h
      exact List.count_pos_iff.mp h
  simp only [lookupA, Option.isSome_none, Bool.false_eq_true, or_false, Option.getD_none,
    Nat.zero_add, hcnt, hmem]

/-! ## C8: duplicate-title and duplicate-description groups -/

/-- C8: for every result mapping (unique keys), the duplicate-titles
output maps a string `T` to a count `c` exactly when `c` success-200
pages carry a non-empty title equal to `T` character-for-character and
`c > 1`; the same rule holds for meta descriptions. -/
theorem C8_duplicate_exact_groups (sameSite : Str → Str → Bool) (results : CrawlResult)
    (hnd : (results.map Prod.fst).Nodup) (T : Str) (c : Nat) :
    (lookupA (analyze sameSite results).duplicate_titles T = some c ↔
      countTitlePages results T = c ∧ 2 ≤ c) ∧
    (lookupA (analyze sameSite results).duplicate_meta_descriptions T = some c ↔
      countMetaPages results T = c ∧ 2 ≤ c) := by
  have main : ∀ f : PageRecord → Str,
      lookupA (((contentRecords results).foldl
          (fun cl pg => if f pg ≠ [] then counterAdd cl (f pg) else cl) []).filter
          (fun p => decide (1 < p.2))) T = some c ↔
        (contentRecords results).countP (fun pg => decide (f pg = T ∧ T ≠ [])) = c ∧ 2 ≤ c := by
    intro f
    have hkn : ((((contentRecords results).foldl
        (fun cl pg => if f pg ≠ [] then counterAdd cl (f pg) else cl) [])).map Prod.fst).Nodup := by
      rw [fieldCounts_eq_fold]
      exact counter_fold_keys_nodup _ [] (by simp)
    have hl := field_counter_lookup f (contentRecords results) T
    by_cases hc1 : 1 ≤ (contentRecords results).countP (fun pg => decide (f pg = T ∧ T ≠ []))
    · rw [if_pos hc1] at hl
      rw [lookupA_filter_some _ hkn hl]
      by_cases h2 : 1 < (contentRecords results).countP (fun pg => decide (f pg = T ∧ T ≠ []))
      · rw [if_pos (by simpa using h2)]
        constructor
        · intro h
          have hc := Option.some.inj h
          exact ⟨hc, by omega⟩
        · rintro ⟨rfl, _⟩
          rfl
      · rw [if_neg (by simpa using h2)]
        constructor
        · intro h; cases h
        · rintro ⟨rfl, hge⟩
          omega
    · rw [if_neg hc1] at hl
      rw [lookupA_filter_none _ hl]
      constructor
      · intro h; cases h
      · rintro ⟨rfl, hge⟩
        omega
  constructor
  · simpa only [analyze, titleCountsOf, countTitlePages] using main PageRecord.title
  · simpa only [analyze, metaCountsOf, countMetaPages] using main PageRecord.meta_description

/-- C8 witness: two pages titled `Home` and two sharing a description
produce the groups; hypotheses discharged on a concrete mapping. -/
theorem C8_witness :
    lookupA (analyze allSame c8results).duplicate_titles (pystr "Home") = some 2 ∧
    lookupA (analyze allSame c8results).duplicate_meta_descriptions (pystr "Welcome") = some 2 := by
  constructor
  · exact (C8_duplicate_exact_groups allSame c8results (by decide) (pystr "Home") 2).1.mpr
      (by constructor <;> decide)
  · exact (C8_duplicate_exact_groups allSame c8results (by decide) (pystr "Welcome") 2).2.mpr
      (by constructor <;> decide)

/-! ## C9: error entries in the analyzer -/

theorem not_mem_content_keys {results : CrawlResult} {url : Str} {e : Entry}
    (hnd : (results.map Prod.fst).Nodup) (hmem : (url, e) ∈ results)
    (he : entryOnpage e = none) :
    url ∉ (contentItems results).map Prod.fst := by
  intro hin
  rcases List.mem_map.mp hin with ⟨p, hp, hp1⟩
  rcases mem_contentItems_elim hp with ⟨fU, hpage⟩
  rw [hp1] at hpage
  have heq := mem_unique_of_nodup hnd hmem hpage
  rw [heq] at he
  cases he

theorem mem_keys_of_filterMap {alpha : Type} (f : Str × alpha → Option Str)
    (hf : ∀ p u, f p = some u → u = p.1) (l : List (Str × alpha)) (url : Str)
    (h : url ∈ l.filterMap f) : url ∈ l.map Prod.fst := by
  rcases List.mem_filterMap.mp h with ⟨p, hp, hfp⟩
  rw [hf p url hfp]
  exact List.mem_map_of_mem _ hp

/-- Dropping entries of a key that carries no page record leaves the
content pages untouched. -/
theorem contentRecords_removeKey (url : Str) (results : CrawlResult)
    (h : ∀ v, (url, v) ∈ results → entryOnpage v = none) :
    contentRecords (removeKey url results) = contentRecords results := by
  induction results with
  | nil => rfl
  | cons p rest ih =>
    rcases p with ⟨a, e⟩
    have hrest : ∀ v, (url, v) ∈ rest → entryOnpage v = none :=
      fun v hv => h v (List.mem_cons_of_mem _ hv)
    by_cases ha : a = url
    · subst ha
      have he : entryOnpage e = none := h e (List.mem_cons_self _ _)
      have hdec : (decide (¬ ((a, e).1 = a))) = false := by simp
      simp only [removeKey] at ih ⊢
      rw [List.filter_cons, hdec, if_neg (by simp)]
      rw [ih hrest]
      unfold contentRecords
      rw [List.filterMap_cons, he]
    · have hdec : (decide (¬ ((a, e).1 = url))) = true := by simpa using ha
      simp only [removeKey] at ih ⊢
      rw [List.filter_cons, if_pos (by simpa using ha)]
      unfold contentRecords
      rw [List.filterMap_cons, List.filterMap_cons]
      cases hce : entryOnpage e with
      | none =>
        have := ih hrest
        unfold contentRecords at this
        exact this
      | some pg =>
        have := ih hrest
        unfold contentRecords at this
        rw [this]

/-- C9: for every result mapping (unique keys) and every address whose
entry is a transport error or an HTTP error, the per-page report for
that address holds only the error message or the HTTP status, the
address sits in none of the content-based issue lists (missing title /
description / H1, thin pages, alt gaps), and the word-frequency,
phrase-candidate and duplicate-grouping outputs are exactly those of
the mapping with that address removed (the entry contributes nothing to
them). -/
theorem C9_error_entries (sameSite : Str → Str → Bool) (results : CrawlResult)
    (url : Str) (e : Entry)
    (hnd : (results.map Prod.fst).Nodup)
    (hmem : (url, e) ∈ results)
    (he : entryOnpage e = none) :
    (∀ m, e = Entry.err m →
      lookupA (analyze sameSite results).per_page url = some (PageReport.errR m)) ∧
    (∀ s f, e = Entry.http s f →
      lookupA (analyze sameSite results).per_page url = some (PageReport.httpR s)) ∧
    url ∉ (analyze sameSite results).pages_missing_title ∧
    url ∉ (analyze sameSite results).pages_missing_meta_description ∧
    url ∉ (analyze sameSite results).pages_missing_h1 ∧
    url ∉ (analyze sameSite results).thin_pages ∧
    lookupA (analyze sameSite results).images_missing_alt url = none ∧
    (analyze sameSite results).top_words =
      (analyze sameSite (removeKey url results)).top_words ∧
    (analyze sameSite results).candidate_phrases =
      (analyze sameSite (removeKey url results)).candidate_phrases ∧
    (analyze sameSite results).duplicate_titles =
      (analyze sameSite (removeKey url results)).duplicate_titles ∧
    (analyze sameSite results).duplicate_meta_descriptions =
      (analyze sameSite (removeKey url results)).duplicate_meta_descriptions := by
  have hck := not_mem_content_keys hnd hmem he
  have hall : ∀ v, (url, v) ∈ results → entryOnpage v = none := by
    intro v hv
    have := mem_unique_of_nodup hnd hv hmem
    rw [this]
    exact he
  have hrk := contentRecords_removeKey url results hall
  have hpp : lookupA (analyze sameSite results).per_page url = some (reportOf e) := by
    simp only [analyze]
    apply lookupA_eq_of_mem
    · have hkeys : (results.map (fun p => (p.1, reportOf p.2))).map Prod.fst
          = results.map Prod.fst := by
        simp [List.map_map, Function.comp]
      rw [hkeys]
      exact hnd
    · exact List.mem_map.mpr ⟨(url, e), hmem, rfl⟩
  refine ⟨?_, ?_, ?_, ?_, ?_, ?_, ?_, ?_, ?_, ?_, ?_⟩
  · rintro m rfl
    exact hpp
  · rintro s f rfl
    exact hpp
  · intro hin
    apply hck
    have hin2 : url ∈ (contentItems results).filterMap
        (fun p => if p.2.title = [] then some p.1 else none) := hin
    refine mem_keys_of_filterMap _ ?_ _ url hin2
    intro p u hq
    by_cases hc : p.2.title = []
    · rw [if_pos hc] at hq; exact (Option.some.inj hq).symm
    · rw [if_neg hc] at hq; cases hq
  · intro hin
    apply hck
    have hin2 : url ∈ (contentItems results).filterMap
        (fun p => if p.2.meta_description = [] then some p.1 else none) := hin
    refine mem_keys_of_filterMap _ ?_ _ url hin2
    intro p u hq
    by_cases hc : p.2.meta_description = []
    · rw [if_pos hc] at hq; exact (Option.some.inj hq).symm
    · rw [if_neg hc] at hq; cases hq
  · intro hin
    apply hck
    have hin2 : url ∈ (contentItems results).filterMap
        (fun p => if p.2.h1s = [] then some p.1 else none) := hin
    refine mem_keys_of_filterMap _ ?_ _ url hin2
    intro p u hq
    by_cases hc : p.2.h1s = []
    · rw [if_pos hc] at hq; exact (Option.some.inj hq).symm
    · rw [if_neg hc] at hq; cases hq
  · intro hin
    apply hck
    have hin2 : url ∈ (contentItems results).filterMap
        (fun p => if p.2.word_count < 300 then some p.1 else none) := hin
    refine mem_keys_of_filterMap _ ?_ _ url hin2
    intro p u hq
    by_cases hc : p.2.word_count < 300
    · rw [if_pos hc] at hq; exact (Option.some.inj hq).symm
    · rw [if_neg hc] at hq; cases hq
  · apply lookupA_eq_none_of_not_mem
    intro hin
    apply hck
    refine List.Sublist.subset ?_ hin
    simp only [analyze]
    apply filterMap_keys_sublist
    intro p q hq
    by_cases hc : (p.2.images.filter (fun i => i.alt = [])).map (fun i => i.src) ≠ []
    · rw [if_pos hc] at hq
      cases hq
      rfl
    · rw [if_neg hc] at hq; cases hq
  · simp only [analyze, hrk]
  · simp only [analyze, hrk]
  · simp only [analyze, hrk]
  · simp only [analyze, hrk]

/-- C9 witness: a transport-error and an HTTP-error entry in a concrete
mapping. -/
theorem C9_witness :
    lookupA (analyze allSame c9results).per_page (pystr "http://x/down") =
      some (PageReport.errR (pystr "conn refused")) ∧
    lookupA (analyze allSame c9results).per_page (pystr "http://x/gone") =
      some (PageReport.httpR 410) ∧
    pystr "http://x/gone" ∉ (analyze allSame c9results).pages_missing_title := by
  refine ⟨?_, ?_, ?_⟩
  · exact (C9_error_entries allSame c9results (pystr "http://x/down")
      (Entry.err (pystr "conn refused")) (by decide) (by decide) (by decide)).1 _ rfl
  · exact (C9_error_entries allSame c9results (pystr "http://x/gone")
      (Entry.http 410 (pystr "http://x/gone")) (by decide) (by decide) (by decide)).2.1 _ _ rfl
  · exact (C9_error_entries allSame c9results (pystr "http://x/gone")
      (Entry.http 410 (pystr "http://x/gone")) (by decide) (by decide) (by decide)).2.2.1


/-! ## C10: `norm_url` idempotence analysis -/

/-! ## `splitOnFirst` and `lastSplitOn` characterizations -/

theorem splitOnFirst_eq_none {c : Char} {s : Str} :
    splitOnFirst c s = none ↔ c ∉ s := by
  induction s with
  | nil => simp [splitOnFirst]
  | cons a s ih =>
    by_cases h : a = c
    · subst h
      simp [splitOnFirst]
    · rw [splitOnFirst, if_neg h]
      rcases hs : splitOnFirst c s with _ | ⟨x, y⟩
      · refine iff_of_true ?_ ?_
        · rfl
        · simp only [List.mem_cons, not_or]
          exact ⟨fun he => h he.symm, ih.mp hs⟩
      · refine iff_of_false (fun hcontra => Option.noConfusion hcontra)
          (fun hc => ?_)
        rw [ih.mpr (fun hm => hc (List.mem_cons_of_mem _ hm))] at hs
        cases hs

theorem splitOnFirst_eq_some {c : Char} {s a b : Str}
    (h : splitOnFirst c s = some (a, b)) : s = a ++ c :: b ∧ c ∉ a := by
  induction s generalizing a b with
  | nil => cases h
  | cons x s ih =>
    by_cases hx : x = c
    · subst hx
      rw [splitOnFirst, if_pos rfl] at h
      cases h
      exact ⟨rfl, List.not_mem_nil _⟩
    · rw [splitOnFirst, if_neg hx] at h
      rcases hs : splitOnFirst c s with _ | ⟨x', y'⟩
      · rw [hs] at h; cases h
      · rw [hs] at h
        cases h
        obtain ⟨h1, h2⟩ := ih hs
        constructor
        · rw [h1]; rfl
        · simp only [List.mem_cons, not_or]
          exact ⟨fun he => hx he.symm, h2⟩

theorem splitOnFirst_append {c : Char} {a : Str} (b : Str) (h : c ∉ a) :
    splitOnFirst c (a ++ c :: b) = some (a, b) := by
  induction a with
  | nil => simp [splitOnFirst]
  | cons x a ih =>
    simp only [List.mem_cons, not_or] at h
    rw [List.cons_append, splitOnFirst, if_neg (fun he => h.1 he.symm),
      ih h.2]

theorem lastSplitOn_eq_none {c : Char} {s : Str} :
    lastSplitOn c s = none ↔ c ∉ s := by
  unfold lastSplitOn
  rcases hs : splitOnFirst c s.reverse with _ | ⟨x, y⟩
  · exact iff_of_true rfl
      (by simpa [List.mem_reverse] using splitOnFirst_eq_none.mp hs)
  · refine iff_of_false (fun h => Option.noConfusion h) (fun hc => ?_)
    have h2 : splitOnFirst c s.reverse = none := splitOnFirst_eq_none.mpr
      (by simpa [List.mem_reverse] using hc)
    rw [h2] at hs
    cases hs

theorem lastSplitOn_eq_some {c : Char} {s a b : Str}
    (h : lastSplitOn c s = some (a, b)) : s = a ++ c :: b ∧ c ∉ b := by
  unfold lastSplitOn at h
  rcases hs : splitOnFirst c s.reverse with _ | ⟨x, y⟩
  · rw [hs] at h; cases h
  · rw [hs] at h
    cases h
    obtain ⟨h1, h2⟩ := splitOnFirst_eq_some hs
    constructor
    · have := congrArg List.reverse h1
      simpa [List.reverse_append] using this
    · simpa [List.mem_reverse] using h2

theorem lastSplitOn_append {c : Char} (a : Str) {b : Str} (h : c ∉ b) :
    lastSplitOn c (a ++ c :: b) = some (a, b) := by
  unfold lastSplitOn
  have : (a ++ c :: b).reverse = b.reverse ++ c :: a.reverse := by
    simp [List.reverse_append]
  rw [this, splitOnFirst_append _ (by simpa [List.mem_reverse] using h)]
  simp

theorem lastSplitOn_cons {c : Char} (x : Char) {s a b : Str}
    (h : lastSplitOn c s = some (a, b)) :
    lastSplitOn c (x :: s) = some (x :: a, b) := by
  obtain ⟨h1, h2⟩ := lastSplitOn_eq_some h
  rw [h1, ← List.cons_append, lastSplitOn_append _ h2]

/-! ## Small list facts -/

theorem mem_takeWhile_pred {p : Char → Bool} {l : Str} {a : Char}
    (h : a ∈ l.takeWhile p) : p a = true := by
  induction l with
  | nil => cases h
  | cons x l ih =>
    by_cases hx : p x
    · rw [List.takeWhile_cons_of_pos hx] at h
      rcases List.mem_cons.mp h with he | hm
      · rw [he]; exact hx
      · exact ih hm
    · rw [List.takeWhile_cons_of_neg hx] at h
      cases h

theorem dropWhile_head_false {p : Char → Bool} {l xs : Str} {x : Char}
    (h : l.dropWhile p = x :: xs) : p x = false := by
  induction l with
  | nil => cases h
  | cons a l ih =>
    by_cases ha : p a
    · rw [List.dropWhile_cons_of_pos ha] at h
      exact ih h
    · rw [List.dropWhile_cons_of_neg ha] at h
      cases h
      exact Bool.eq_false_iff.mpr ha

theorem take1_eq_cons {l : Str} {a : Char} (h : l.take 1 = [a]) :
    ∃ t, l = a :: t := by
  rcases l with _ | ⟨x, t⟩
  · cases h
  · simp only [List.take, List.take_zero] at h
    cases h
    exact ⟨t, rfl⟩

theorem take2_eq_cons {l : Str} {a b : Char} (h : l.take 2 = [a, b]) :
    ∃ t, l = a :: b :: t := by
  rcases l with _ | ⟨x, l'⟩
  · cases h
  · rcases l' with _ | ⟨y, t⟩
    · cases h
    · simp only [List.take, List.take_zero] at h
      cases h
      exact ⟨t, rfl⟩

theorem take1_append_left {a : Str} (b : Str) (h : a ≠ []) :
    (a ++ b).take 1 = a.take 1 := by
  rcases a with _ | ⟨x, t⟩
  · exact absurd rfl h
  · rfl

theorem suffix_decomp {c : Char} {b : Str} :
    ∀ (x r a : Str), x ++ r = a ++ c :: b → c ∉ b → c ∈ r →
      ∃ a', r = a' ++ c :: b := by
  intro x
  induction x with
  | nil =>
    intro r a h _ _
    exact ⟨a, by simpa using h⟩
  | cons x0 xs ih =>
    intro r a h hb hr
    rcases a with _ | ⟨a0, a'⟩
    · simp only [List.cons_append, List.nil_append] at h
      injection h with h1 h2
      rw [← h2] at hb
      exact absurd (List.mem_append_right xs hr) hb
    · simp only [List.cons_append] at h
      injection h with h1 h2
      exact ih r a' h2 hb hr

theorem lastSplitOn_of_suffix {c : Char} {s a b x r : Str}
    (h : lastSplitOn c s = some (a, b)) (hs : s = x ++ r) (hr : c ∈ r) :
    ∃ a', r = a' ++ c :: b ∧ lastSplitOn c r = some (a', b) := by
  obtain ⟨h1, h2⟩ := lastSplitOn_eq_some h
  obtain ⟨a', ha'⟩ := suffix_decomp x r a (by rw [← hs, h1]) h2 hr
  exact ⟨a', ha', by rw [ha']; exact lastSplitOn_append a' h2⟩

/-! ## `_splitparams` output facts -/

theorem splitparams_chars {x p prm : Str} (h : splitparams x = (p, prm)) :
    (∀ ch ∈ p, ch ∈ x) ∧ (∀ ch ∈ prm, ch ∈ x) ∧ '/' ∉ prm ∧
    (x.take 1 = ['/'] → p.take 1 = ['/']) := by
  unfold splitparams at h
  rcases hls : lastSplitOn '/' x with _ | ⟨a, b⟩
  · rw [hls] at h
    rcases hsf : splitOnFirst ';' x with _ | ⟨u1, u2⟩ <;> simp only [hsf] at h
    · cases h
      refine ⟨fun ch hch => (List.dropLast_sublist x).mem hch, fun ch hch => hch,
        lastSplitOn_eq_none.mp hls, fun h1 => ?_⟩
      obtain ⟨t, ht⟩ := take1_eq_cons h1
      exact absurd (by rw [ht]; exact List.mem_cons_self _ _)
        (lastSplitOn_eq_none.mp hls)
    · cases h
      obtain ⟨h1, h2⟩ := splitOnFirst_eq_some hsf
      have hnos := lastSplitOn_eq_none.mp hls
      refine ⟨fun ch hch => by rw [h1]; exact List.mem_append_left _ hch,
        fun ch hch => by rw [h1]; exact List.mem_append_right _ (List.mem_cons_of_mem _ hch),
        fun hch => hnos (by rw [h1]; exact List.mem_append_right _ (List.mem_cons_of_mem _ hch)),
        fun ht => ?_⟩
      obtain ⟨t, ht'⟩ := take1_eq_cons ht
      exact absurd (by rw [ht']; exact List.mem_cons_self _ _) hnos
  · rw [hls] at h
    obtain ⟨hx, hnb⟩ := lastSplitOn_eq_some hls
    rcases hsf : splitOnFirst ';' b with _ | ⟨b1, b2⟩ <;> simp only [hsf] at h
    · cases h
      exact ⟨fun ch hch => hch, fun ch hch => absurd hch (List.not_mem_nil _),
        List.not_mem_nil _, fun ht => ht⟩
    · cases h
      obtain ⟨hb, hnb1⟩ := splitOnFirst_eq_some hsf
      refine ⟨?_, ?_, ?_, ?_⟩
      · intro ch hch
        rw [hx, hb]
        rcases List.mem_append.mp hch with hl | hr
        · exact List.mem_append_left _ hl
        · rcases List.mem_cons.mp hr with he | hm
          · exact List.mem_append_right _ (he ▸ List.mem_cons_self _ _)
          · exact List.mem_append_right _
              (List.mem_cons_of_mem _ (List.mem_append_left _ hm))
      · intro ch hch
        rw [hx, hb]
        exact List.mem_append_right _ (List.mem_cons_of_mem _
          (List.mem_append_right _ (List.mem_cons_of_mem _ hch)))
      · intro hch
        exact hnb (by rw [hb]; exact List.mem_append_right _ (List.mem_cons_of_mem _ hch))
      · intro ht
        rcases a with _ | ⟨a0, a'⟩
        · rfl
        · rw [hx, take1_append_left _ (by simp)] at ht
          rw [take1_append_left _ (by simp)]
          exact ht

theorem splitparams_parts {x p prm : Str} (h : splitparams x = (p, prm))
    (hx : ';' ∈ x) :
    (';' ∈ ppJoin p prm → splitparams (ppJoin p prm) = (p, prm)) ∧
    lastSegOK (ppJoin p prm) ∧
    ('/' ∉ ppJoin p prm → ';' ∈ ppJoin p prm →
      splitOnFirst ';' (ppJoin p prm) = some (p, prm) ∧ prm ≠ []) := by
  have horig := h
  unfold splitparams at h
  rcases hls : lastSplitOn '/' x with _ | ⟨a, b⟩
  · rw [hls] at h
    rcases hsf : splitOnFirst ';' x with _ | ⟨u1, u2⟩ <;> simp only [hsf] at h
    · exact absurd hx (splitOnFirst_eq_none.mp hsf)
    · cases h
      obtain ⟨hx1, hnu1⟩ := splitOnFirst_eq_some hsf
      have hnosx := lastSplitOn_eq_none.mp hls
      by_cases hu2 : prm = []
      · subst hu2
        have hpp : ppJoin p [] = p := by simp [ppJoin]
        rw [hpp]
        refine ⟨fun hmem => absurd hmem hnu1, ?_, fun _ hmem => absurd hmem hnu1⟩
        intro a1 b1 h1
        rw [lastSplitOn_eq_none.mpr (fun hm => hnosx (by rw [hx1]; exact List.mem_append_left _ hm))] at h1
        cases h1
      · have hpp : ppJoin p prm = x := by
          rw [ppJoin, if_pos hu2, hx1]
        rw [hpp]
        refine ⟨fun _ => horig, ?_, fun _ _ => ⟨hsf, hu2⟩⟩
        intro a1 b1 h1
        rw [lastSplitOn_eq_none.mpr hnosx] at h1
        cases h1
  · rw [hls] at h
    obtain ⟨hx1, hnb⟩ := lastSplitOn_eq_some hls
    rcases hsf : splitOnFirst ';' b with _ | ⟨b1, b2⟩ <;> simp only [hsf] at h
    · cases h
      have hpp : ppJoin x [] = x := by simp [ppJoin]
      rw [hpp]
      refine ⟨fun _ => horig, ?_, ?_⟩
      · intro a1 b1 h1
        rw [hls] at h1
        cases h1
        exact Or.inl (splitOnFirst_eq_none.mp hsf)
      · intro hnos _
        exact absurd (by rw [hx1]; exact List.mem_append_right _ (List.mem_cons_self _ _)) hnos
    · cases h
      obtain ⟨hb1, hnsb1⟩ := splitOnFirst_eq_some hsf
      have hnsb : '/' ∉ b1 := fun hm => hnb (by rw [hb1]; exact List.mem_append_left _ hm)
      by_cases hb2 : prm = []
      · subst hb2
        have hpp : ppJoin (a ++ '/' :: b1) ([] : Str) = a ++ '/' :: b1 := by simp [ppJoin]
        rw [hpp]
        have hlsp : lastSplitOn '/' (a ++ '/' :: b1) = some (a, b1) :=
          lastSplitOn_append a hnsb
        refine ⟨?_, ?_, ?_⟩
        · intro _
          unfold splitparams
          simp only [hlsp, splitOnFirst_eq_none.mpr hnsb1]
        · intro a1 b1' h1
          rw [hlsp] at h1
          cases h1
          exact Or.inl hnsb1
        · intro hnos _
          exact absurd (List.mem_append_right _ (List.mem_cons_self _ _)) hnos
      · have hpp : ppJoin (a ++ '/' :: b1) prm = x := by
          rw [ppJoin, if_pos hb2, hx1, hb1]
          simp
        rw [hpp]
        refine ⟨fun _ => horig, ?_, ?_⟩
        · intro a1 b1' h1
          rw [hls] at h1
          cases h1
          exact Or.inr ⟨b1, prm, hsf, hb2⟩
        · intro hnos _
          exact absurd (by rw [hx1]; exact List.mem_append_right _ (List.mem_cons_self _ _)) hnos

theorem ppJoin_splitparams_suffix {pp x r : Str} (hok : lastSegOK pp)
    (hsuf : pp = x ++ r) (hr : '/' ∈ r) :
    ppJoin (splitparams r).1 (splitparams r).2 = r := by
  have hslash : '/' ∈ pp := by rw [hsuf]; exact List.mem_append_right _ hr
  rcases hls : lastSplitOn '/' pp with _ | ⟨a, bL⟩
  · exact absurd hslash (lastSplitOn_eq_none.mp hls)
  · obtain ⟨a', hra', hlsr⟩ := lastSplitOn_of_suffix hls hsuf hr
    rcases hsf : splitOnFirst ';' bL with _ | ⟨b1, b2⟩
    · have hsp : splitparams r = (r, []) := by
        unfold splitparams
        simp only [hlsr, hsf]
      rw [hsp]
      simp [ppJoin]
    · rcases hok a bL hls with hnos | ⟨b1', b2', hsf', hb2'⟩
      · obtain ⟨hb, _⟩ := splitOnFirst_eq_some hsf
        exact absurd (by rw [hb]; exact List.mem_append_right _ (List.mem_cons_self _ _)) hnos
      · rw [hsf] at hsf'
        injection hsf' with hinj
        injection hinj with hinj1 hinj2
        have hb2 : b2 ≠ [] := by rw [hinj2]; exact hb2'
        have hsp : splitparams r = (a' ++ '/' :: b1, b2) := by
          unfold splitparams
          simp only [hlsr, hsf]
        rw [hsp]
        obtain ⟨hbL, _⟩ := splitOnFirst_eq_some hsf
        rw [ppJoin, if_pos hb2, hra', hbL]
        simp

/-! ## `urlsplit` invariants -/

theorem urlsplit_decompose (w d : Str) :
    urlsplit w d =
      ⟨(schemeOf (sanitizeUrl w) (sanitizeScheme d)).1,
       (netSplit (schemeOf (sanitizeUrl w) (sanitizeScheme d)).2).1,
       (querySplit (fragSplit (netSplit (schemeOf (sanitizeUrl w) (sanitizeScheme d)).2).2).1).1,
       (querySplit (fragSplit (netSplit (schemeOf (sanitizeUrl w) (sanitizeScheme d)).2).2).1).2,
       (fragSplit (netSplit (schemeOf (sanitizeUrl w) (sanitizeScheme d)).2).2).2⟩ := rfl

theorem sanitizeUrl_safe (w : Str) :
    ∀ ch ∈ sanitizeUrl w, isUnsafeUrlByte ch = false := by
  intro ch hch
  unfold sanitizeUrl at hch
  have := List.of_mem_filter hch
  simpa using this

theorem schemeSplit_mem {u s r : Str} (h : schemeSplit u = some (s, r)) :
    ∀ ch ∈ r, ch ∈ u := by
  unfold schemeSplit at h
  rcases hsf : splitOnFirst ':' u with _ | ⟨pre, rest⟩ <;> rw [hsf] at h
  · exact Option.noConfusion h
  · rcases pre with _ | ⟨c0, pre'⟩
    · exact Option.noConfusion h
    · have h' : (if c0.isAlpha ∧ (c0 :: pre').all isSchemeChar
          then some (pyLower (c0 :: pre'), rest) else none) = some (s, r) := h
      split at h'
      · cases h'
        obtain ⟨h1, _⟩ := splitOnFirst_eq_some hsf
        intro ch hch
        rw [h1]
        exact List.mem_append_right _ (List.mem_cons_of_mem _ hch)
      · exact Option.noConfusion h'

theorem schemeOf_mem (u ds : Str) :
    ∀ ch ∈ (schemeOf u ds).2, ch ∈ u := by
  unfold schemeOf
  rcases hss : schemeSplit u with _ | ⟨s, r⟩
  · exact fun ch hch => hch
  · exact schemeSplit_mem hss

theorem netSplit_facts (u : Str) :
    (∀ ch ∈ (netSplit u).1, notNetlocDelim ch = true) ∧
    (∀ ch ∈ (netSplit u).1, ch ∈ u) ∧
    (∀ ch ∈ (netSplit u).2, ch ∈ u) ∧
    ((netSplit u).1 ≠ [] → ∀ x t, (netSplit u).2 = x :: t → notNetlocDelim x = false) := by
  unfold netSplit
  split
  · refine ⟨fun ch hch => mem_takeWhile_pred hch,
      fun ch hch => List.mem_of_mem_drop ((List.takeWhile_sublist _).mem hch),
      fun ch hch => List.mem_of_mem_drop ((List.dropWhile_sublist _).mem hch),
      fun _ x t ht => dropWhile_head_false ht⟩
  · exact ⟨fun ch hch => absurd hch (List.not_mem_nil _),
      fun ch hch => absurd hch (List.not_mem_nil _),
      fun ch hch => hch,
      fun hne => absurd rfl hne⟩

theorem fragSplit_facts (u : Str) :
    '#' ∉ (fragSplit u).1 ∧
    (∀ ch ∈ (fragSplit u).1, ch ∈ u) ∧
    (∀ x t, (fragSplit u).1 = x :: t → ∃ t2, u = x :: t2) := by
  unfold fragSplit
  rcases hsf : splitOnFirst '#' u with _ | ⟨a, b⟩
  · exact ⟨splitOnFirst_eq_none.mp hsf, fun ch hch => hch,
      fun x t ht => ⟨t, ht⟩⟩
  · obtain ⟨h1, h2⟩ := splitOnFirst_eq_some hsf
    refine ⟨h2, fun ch hch => by rw [h1]; exact List.mem_append_left _ hch,
      fun x t ht => ?_⟩
    have ht' : a = x :: t := ht
    rw [h1, ht']
    exact ⟨t ++ '#' :: b, rfl⟩

theorem querySplit_facts (u : Str) :
    '?' ∉ (querySplit u).1 ∧
    (∀ ch ∈ (querySplit u).1, ch ∈ u) ∧
    (∀ ch ∈ (querySplit u).2, ch ∈ u) ∧
    (∀ x t, (querySplit u).1 = x :: t → ∃ t2, u = x :: t2) := by
  unfold querySplit
  rcases hsf : splitOnFirst '?' u with _ | ⟨a, b⟩
  · exact ⟨splitOnFirst_eq_none.mp hsf, fun ch hch => hch,
      fun ch hch => absurd (show ch ∈ ([] : Str) from hch) (List.not_mem_nil _),
      fun x t ht => ⟨t, ht⟩⟩
  · obtain ⟨h1, h2⟩ := splitOnFirst_eq_some hsf
    refine ⟨h2, fun ch hch => by rw [h1]; exact List.mem_append_left _ hch,
      fun ch hch => by rw [h1]; exact List.mem_append_right _ (List.mem_cons_of_mem _ hch),
      fun x t ht => ?_⟩
    have ht' : a = x :: t := ht
    rw [h1, ht']
    exact ⟨t ++ '?' :: b, rfl⟩

theorem urlsplit_inv (w d : Str) :
    (∀ ch ∈ (urlsplit w d).netloc, notNetlocDelim ch = true) ∧
    '#' ∉ (urlsplit w d).path ∧ '?' ∉ (urlsplit w d).path ∧
    '#' ∉ (urlsplit w d).query ∧
    (∀ ch ∈ (urlsplit w d).netloc, isUnsafeUrlByte ch = false) ∧
    (∀ ch ∈ (urlsplit w d).path, isUnsafeUrlByte ch = false) ∧
    (∀ ch ∈ (urlsplit w d).query, isUnsafeUrlByte ch = false) ∧
    ((urlsplit w d).netloc ≠ [] →
      (urlsplit w d).path = [] ∨ (urlsplit w d).path.take 1 = ['/']) := by
  rw [urlsplit_decompose]
  obtain ⟨hn1, hn2, hn3, hn4⟩ := netSplit_facts (schemeOf (sanitizeUrl w) (sanitizeScheme d)).2
  obtain ⟨hf1, hf2, hf3⟩ := fragSplit_facts (netSplit (schemeOf (sanitizeUrl w) (sanitizeScheme d)).2).2
  obtain ⟨hq1, hq2, hq3, hq4⟩ := querySplit_facts (fragSplit (netSplit (schemeOf (sanitizeUrl w) (sanitizeScheme d)).2).2).1
  have hsafe2 : ∀ ch ∈ (schemeOf (sanitizeUrl w) (sanitizeScheme d)).2, isUnsafeUrlByte ch = false :=
    fun ch hch => sanitizeUrl_safe w ch (schemeOf_mem _ _ _ hch)
  refine ⟨hn1, fun hch => hf1 (hq2 _ hch), hq1, fun hch => hf1 (hq3 _ hch),
    fun ch hch => hsafe2 ch (hn2 ch hch),
    fun ch hch => hsafe2 ch (hn3 _ (hf2 _ (hq2 _ hch))),
    fun ch hch => hsafe2 ch (hn3 _ (hf2 _ (hq3 _ hch))), ?_⟩
  intro hne
  rcases hp : (querySplit (fragSplit (netSplit (schemeOf (sanitizeUrl w) (sanitizeScheme d)).2).2).1).1 with _ | ⟨x, t⟩
  · exact Or.inl rfl
  · right
    obtain ⟨t2, ht2⟩ := hq4 x t hp
    obtain ⟨t3, ht3⟩ := hf3 x t2 ht2
    have hx := hn4 hne x t3 ht3
    have hxmem : x ∈ (querySplit (fragSplit (netSplit (schemeOf (sanitizeUrl w) (sanitizeScheme d)).2).2).1).1 := by
      rw [hp]; exact List.mem_cons_self _ _
    have hx1 : x ≠ '?' := fun he => hq1 (he ▸ hxmem)
    have hx2 : x ≠ '#' := fun he => hf1 (hq2 _ (he ▸ hxmem))
    have hx' : x = '/' ∨ x = '?' ∨ x = '#' := by
      by_contra hcon
      push_neg at hcon
      simp [notNetlocDelim, hcon.1, hcon.2.1, hcon.2.2] at hx
    rcases hx' with h | h | h
    · subst h
      rfl
    · exact absurd h hx1
    · exact absurd h hx2

/-! ## `urlparse` invariants -/

theorem urlparse_inv (w d : Str) : ParseInv (urlparse w d) := by
  obtain ⟨hs1, hs2, hs3, hs4, hs5, hs6, hs7, hs8⟩ := urlsplit_inv w d
  by_cases hguard : (urlsplit w d).scheme ∈ usesParams ∧ ';' ∈ (urlsplit w d).path
  · rcases hsplit : splitparams (urlsplit w d).path with ⟨p, prm⟩
    obtain ⟨hc1, hc2, hc3, hc4⟩ := splitparams_chars hsplit
    obtain ⟨hp1, hp2, hp3⟩ := splitparams_parts hsplit hguard.2
    have he : urlparse w d = ⟨(urlsplit w d).scheme, (urlsplit w d).netloc,
        p, prm, (urlsplit w d).query, (urlsplit w d).fragment⟩ := by
      simp only [urlparse]
      rw [if_pos hguard, hsplit]
    rw [he]
    exact ⟨hs1,
      fun hch => hs2 (hc1 _ hch), fun hch => hs3 (hc1 _ hch),
      fun hch => hs2 (hc2 _ hch), fun hch => hs3 (hc2 _ hch),
      hc3, hs4, hs5,
      fun ch hch => hs6 ch (hc1 _ hch), fun ch hch => hs6 ch (hc2 _ hch),
      hs7,
      fun hne => by
        rcases hs8 hne with hnil | htake
        · exact absurd hguard.2 (by rw [hnil]; exact List.not_mem_nil _)
        · exact Or.inr (hc4 htake),
      fun _ hmem => hp1 hmem,
      fun _ => hp2,
      fun _ h1 h2 => hp3 h1 h2⟩
  · have he : urlparse w d = ⟨(urlsplit w d).scheme, (urlsplit w d).netloc,
        (urlsplit w d).path, [], (urlsplit w d).query, (urlsplit w d).fragment⟩ := by
      simp only [urlparse]
      rw [if_neg hguard]
    rw [he]
    refine ⟨hs1, hs2, hs3, List.not_mem_nil _, List.not_mem_nil _, List.not_mem_nil _,
      hs4, hs5, hs6, fun ch hch => absurd hch (List.not_mem_nil _), hs7,
      fun hne => ?_, fun hin hmem => ?_, fun hin => ?_, fun hin _ hmem => ?_⟩
    · rcases hs8 hne with hnil | htake
      · exact Or.inl ⟨hnil, rfl⟩
      · exact Or.inr htake
    · have hmem' : ';' ∈ (urlsplit w d).path := by simpa [ppJoin] using hmem
      exact absurd ⟨hin, hmem'⟩ hguard
    · intro a b hls
      obtain ⟨hdec, _⟩ := lastSplitOn_eq_some (by simpa [ppJoin] using hls)
      refine Or.inl (fun hmem => ?_)
      have : ';' ∈ (urlsplit w d).path := by
        rw [hdec]
        exact List.mem_append_right _ (List.mem_cons_of_mem _ hmem)
      exact absurd ⟨hin, this⟩ hguard
    · have hmem' : ';' ∈ (urlsplit w d).path := by simpa [ppJoin] using hmem
      exact absurd ⟨hin, hmem'⟩ hguard

/-! ## Parsing a reassembled `scheme://...` URL -/

theorem optQ_cases (q : Str) :
    (q = [] ∧ optQ q = []) ∨ (q ≠ [] ∧ optQ q = '?' :: q) := by
  unfold optQ
  by_cases hq : q = []
  · exact Or.inl ⟨hq, by rw [if_neg (fun hc => hc hq)]⟩
  · exact Or.inr ⟨hq, by rw [if_pos hq]⟩

theorem tw_append_optQ (T1 q : Str) :
    (T1 ++ optQ q).takeWhile notNetlocDelim = T1.takeWhile notNetlocDelim ∧
    (T1 ++ optQ q).dropWhile notNetlocDelim = T1.dropWhile notNetlocDelim ++ optQ q := by
  rcases optQ_cases q with ⟨_, hq⟩ | ⟨_, hq⟩ <;> rw [hq]
  · simp
  · induction T1 with
    | nil =>
      constructor
      · rw [List.nil_append, List.takeWhile_nil, List.takeWhile_cons_of_neg (by decide)]
      · rw [List.nil_append, List.dropWhile_nil, List.dropWhile_cons_of_neg (by decide),
          List.nil_append]
    | cons x T1 ih =>
      by_cases hx : notNetlocDelim x
      · rw [List.cons_append, List.takeWhile_cons_of_pos hx, List.takeWhile_cons_of_pos hx,
          List.dropWhile_cons_of_pos hx, List.dropWhile_cons_of_pos hx]
        exact ⟨congrArg (x :: ·) ih.1, ih.2⟩
      · rw [List.cons_append, List.takeWhile_cons_of_neg hx, List.takeWhile_cons_of_neg hx,
          List.dropWhile_cons_of_neg hx, List.dropWhile_cons_of_neg hx]
        exact ⟨rfl, rfl⟩

theorem schemeSplit_http (R : Str) :
    schemeSplit (pystr "http" ++ ':' :: R) = some (pystr "http", R) := by
  unfold schemeSplit
  rw [splitOnFirst_append R (by decide)]
  rfl

theorem schemeSplit_https (R : Str) :
    schemeSplit (pystr "https" ++ ':' :: R) = some (pystr "https", R) := by
  unfold schemeSplit
  rw [splitOnFirst_append R (by decide)]
  rfl

theorem sanitizeUrl_assembled {s R : Str} (hs : s = pystr "http" ∨ s = pystr "https")
    (hsafe : ∀ ch ∈ R, isUnsafeUrlByte ch = false) :
    sanitizeUrl (s ++ ':' :: R) = s ++ ':' :: R := by
  unfold sanitizeUrl
  have hall : ∀ ch ∈ s ++ ':' :: R, (!isUnsafeUrlByte ch) = true := by
    intro ch hch
    rcases List.mem_append.mp hch with hl | hr
    · rcases hs with h | h <;> subst h
      · have hl' : ch ∈ (['h', 't', 't', 'p'] : Str) := hl
        simp only [List.mem_cons, List.not_mem_nil, or_false] at hl'
        rcases hl' with rfl | rfl | rfl | rfl <;> decide
      · have hl' : ch ∈ (['h', 't', 't', 'p', 's'] : Str) := hl
        simp only [List.mem_cons, List.not_mem_nil, or_false] at hl'
        rcases hl' with rfl | rfl | rfl | rfl | rfl <;> decide
    · rcases List.mem_cons.mp hr with he | hm
      · subst he; decide
      · simp [hsafe ch hm]
  have hdrop : (s ++ ':' :: R).dropWhile isC0OrSpace = s ++ ':' :: R := by
    rcases hs with h | h <;> subst h
    · rw [show pystr "http" ++ ':' :: R = 'h' :: ('t' :: 't' :: 'p' :: ':' :: R) from rfl,
        List.dropWhile_cons_of_neg (by decide)]
    · rw [show pystr "https" ++ ':' :: R = 'h' :: ('t' :: 't' :: 'p' :: 's' :: ':' :: R) from rfl,
        List.dropWhile_cons_of_neg (by decide)]
  rw [hdrop, List.filter_eq_self.mpr hall]

theorem urlsplit_assembled (s T1 q d : Str)
    (hs : s = pystr "http" ∨ s = pystr "https")
    (h1 : '#' ∉ T1) (h2 : '?' ∉ T1)
    (h3 : ∀ ch ∈ T1, isUnsafeUrlByte ch = false)
    (h4 : '#' ∉ q) (h5 : ∀ ch ∈ q, isUnsafeUrlByte ch = false) :
    urlsplit (s ++ ':' :: '/' :: '/' :: (T1 ++ optQ q)) d =
      ⟨s, T1.takeWhile notNetlocDelim, T1.dropWhile notNetlocDelim, q, []⟩ := by
  have hsafeR : ∀ ch ∈ ('/' :: '/' :: (T1 ++ optQ q) : Str), isUnsafeUrlByte ch = false := by
    intro ch hch
    rcases List.mem_cons.mp hch with he | hch2
    · subst he; decide
    rcases List.mem_cons.mp hch2 with he | hch3
    · subst he; decide
    rcases List.mem_append.mp hch3 with hl | hr
    · exact h3 ch hl
    · rcases optQ_cases q with ⟨_, hq⟩ | ⟨_, hq⟩ <;> rw [hq] at hr
      · exact absurd hr (List.not_mem_nil _)
      · rcases List.mem_cons.mp hr with he | hm
        · subst he; decide
        · exact h5 ch hm
  have hso : schemeOf (sanitizeUrl (s ++ ':' :: '/' :: '/' :: (T1 ++ optQ q)))
      (sanitizeScheme d) = (s, '/' :: '/' :: (T1 ++ optQ q)) := by
    rw [sanitizeUrl_assembled hs hsafeR]
    unfold schemeOf
    rcases hs with h | h <;> subst h
    · rw [schemeSplit_http]
    · rw [schemeSplit_https]
  have hns : netSplit ('/' :: '/' :: (T1 ++ optQ q)) =
      ((T1 ++ optQ q).takeWhile notNetlocDelim, (T1 ++ optQ q).dropWhile notNetlocDelim) := by
    unfold netSplit
    have hc : List.take 2 ('/' :: '/' :: (T1 ++ optQ q)) = ['/', '/'] := rfl
    rw [if_pos hc]
    rfl
  obtain ⟨htw, hdw⟩ := tw_append_optQ T1 q
  have hnofrag : '#' ∉ T1.dropWhile notNetlocDelim ++ optQ q := by
    intro hmem
    rcases List.mem_append.mp hmem with hl | hr
    · exact h1 ((List.dropWhile_sublist _).mem hl)
    · rcases optQ_cases q with ⟨_, hq⟩ | ⟨_, hq⟩ <;> rw [hq] at hr
      · exact absurd hr (List.not_mem_nil _)
      · rcases List.mem_cons.mp hr with he | hm
        · exact absurd he (by decide)
        · exact h4 hm
  have hfs : fragSplit (T1.dropWhile notNetlocDelim ++ optQ q) =
      (T1.dropWhile notNetlocDelim ++ optQ q, []) := by
    unfold fragSplit
    rw [splitOnFirst_eq_none.mpr hnofrag]
  have hnoq : '?' ∉ T1.dropWhile notNetlocDelim :=
    fun hm => h2 ((List.dropWhile_sublist _).mem hm)
  have hqs : querySplit (T1.dropWhile notNetlocDelim ++ optQ q) =
      (T1.dropWhile notNetlocDelim, q) := by
    rcases optQ_cases q with ⟨hq0, hq⟩ | ⟨hq0, hq⟩ <;> rw [hq]
    · rw [List.append_nil]
      unfold querySplit
      rw [splitOnFirst_eq_none.mpr hnoq, hq0]
    · unfold querySplit
      rw [splitOnFirst_append q hnoq]
  simp only [urlsplit_decompose, hso, hns, htw, hdw, hfs, hqs]

theorem urlparse_assembled (s T1 q d : Str)
    (hs : s = pystr "http" ∨ s = pystr "https")
    (h1 : '#' ∉ T1) (h2 : '?' ∉ T1)
    (h3 : ∀ ch ∈ T1, isUnsafeUrlByte ch = false)
    (h4 : '#' ∉ q) (h5 : ∀ ch ∈ q, isUnsafeUrlByte ch = false) :
    urlparse (s ++ ':' :: '/' :: '/' :: (T1 ++ optQ q)) d =
      ⟨s, T1.takeWhile notNetlocDelim, (pathParams (T1.dropWhile notNetlocDelim)).1,
       (pathParams (T1.dropWhile notNetlocDelim)).2, q, []⟩ := by
  have hus := urlsplit_assembled s T1 q d hs h1 h2 h3 h4 h5
  have hsp : s ∈ usesParams := by rcases hs with h | h <;> subst h <;> decide
  simp only [urlparse, hus, pathParams]
  by_cases hmem : ';' ∈ T1.dropWhile notNetlocDelim
  · rw [if_pos ⟨hsp, hmem⟩, if_pos hmem]
  · rw [if_neg (fun hc => hmem hc.2), if_neg hmem]

theorem urlunparse_assembled (s T1 q : Str)
    (hs : s = pystr "http" ∨ s = pystr "https")
    (h1 : '#' ∉ T1) (h2 : '?' ∉ T1)
    (hpp : ppJoin (pathParams (T1.dropWhile notNetlocDelim)).1
      (pathParams (T1.dropWhile notNetlocDelim)).2 = T1.dropWhile notNetlocDelim)
    (hn : T1.takeWhile notNetlocDelim ≠ []) :
    urlunparse ⟨s, T1.takeWhile notNetlocDelim,
      (pathParams (T1.dropWhile notNetlocDelim)).1,
      (pathParams (T1.dropWhile notNetlocDelim)).2, q, []⟩ =
      s ++ ':' :: '/' :: '/' :: (T1 ++ optQ q) := by
  have hju : urlunparse ⟨s, T1.takeWhile notNetlocDelim,
      (pathParams (T1.dropWhile notNetlocDelim)).1,
      (pathParams (T1.dropWhile notNetlocDelim)).2, q, []⟩ =
      urlunsplit ⟨s, T1.takeWhile notNetlocDelim,
        ppJoin (pathParams (T1.dropWhile notNetlocDelim)).1
          (pathParams (T1.dropWhile notNetlocDelim)).2, q, []⟩ := rfl
  rw [hju, hpp]
  have hsne : s ≠ [] := by rcases hs with h | h <;> subst h <;> decide
  have hdf : T1.dropWhile notNetlocDelim = [] ∨
      (T1.dropWhile notNetlocDelim).take 1 = ['/'] := by
    rcases hd : T1.dropWhile notNetlocDelim with _ | ⟨x, t⟩
    · exact Or.inl rfl
    · right
      have hx := dropWhile_head_false hd
      have hxm : x ∈ T1 :=
        (List.dropWhile_sublist _).mem (hd ▸ List.mem_cons_self x t)
      have hx' : x = '/' ∨ x = '?' ∨ x = '#' := by
        by_contra hcon
        push_neg at hcon
        simp [notNetlocDelim, hcon.1, hcon.2.1, hcon.2.2] at hx
      rcases hx' with h | h | h
      · rw [h]
        rfl
      · exact absurd (h ▸ hxm) h2
      · exact absurd (h ▸ hxm) h1
  have hifcl : (if T1.dropWhile notNetlocDelim ≠ [] ∧
      (T1.dropWhile notNetlocDelim).take 1 ≠ ['/']
      then '/' :: T1.dropWhile notNetlocDelim else T1.dropWhile notNetlocDelim) =
      T1.dropWhile notNetlocDelim := by
    rcases hdf with h | h
    · rw [if_neg (fun hc => hc.1 h)]
    · rw [if_neg (fun hc => hc.2 h)]
  simp only [urlunsplit]
  rw [if_pos (Or.inl hn), hifcl, List.takeWhile_append_dropWhile,
    if_pos hsne, if_neg (fun hc : ([] : Str) ≠ [] => hc rfl)]
  rcases optQ_cases q with ⟨hq0, hq⟩ | ⟨hq0, hq⟩ <;> rw [hq]
  · rw [if_neg (fun hc => hc hq0), List.append_nil]
  · rw [if_pos hq0]
    simp

/-! ## Shape of `geturl` output for an `http(s)` parse -/

theorem ppJoin_mem {p prm : Str} {ch : Char} (h : ch ∈ ppJoin p prm) :
    ch ∈ p ∨ ch = ';' ∨ ch ∈ prm := by
  unfold ppJoin at h
  split at h
  · rcases List.mem_append.mp h with hl | hr
    · exact Or.inl hl
    · rcases List.mem_cons.mp hr with he | hm
      · exact Or.inr (Or.inl he)
      · exact Or.inr (Or.inr hm)
  · exact Or.inl h

theorem ppJoin_head {p prm : Str} (h : p.take 1 = ['/']) :
    (ppJoin p prm).take 1 = ['/'] := by
  unfold ppJoin
  split
  · obtain ⟨t, ht⟩ := take1_eq_cons h
    rw [ht]
    rfl
  · exact h

theorem lastSegOK_cons {pp : Str} (x : Char) (hsl : '/' ∈ pp)
    (hok : lastSegOK pp) : lastSegOK (x :: pp) := by
  intro a b hls
  rcases hls0 : lastSplitOn '/' pp with _ | ⟨a0, b0⟩
  · exact absurd hsl (lastSplitOn_eq_none.mp hls0)
  · have h1 := lastSplitOn_cons x hls0
    rw [h1] at hls
    cases hls
    exact hok _ _ hls0

theorem urlunsplit_http (s n PP q : Str)
    (hs : s = pystr "http" ∨ s = pystr "https") :
    urlunsplit ⟨s, n, PP, q, []⟩ =
      s ++ ':' :: ((if n ≠ [] ∨ PP.take 2 ≠ ['/', '/']
        then '/' :: '/' :: (n ++ (if PP ≠ [] ∧ PP.take 1 ≠ ['/'] then '/' :: PP else PP))
        else PP) ++ optQ q) := by
  have hsne : s ≠ [] := by rcases hs with h | h <;> subst h <;> decide
  have hsnet : s ∈ usesNetloc := by rcases hs with h | h <;> subst h <;> decide
  have hcc : (if n ≠ [] ∨ (s ≠ [] ∧ s ∈ usesNetloc ∧ PP.take 2 ≠ ['/', '/'])
      then '/' :: '/' :: (n ++ (if PP ≠ [] ∧ PP.take 1 ≠ ['/'] then '/' :: PP else PP))
      else PP) =
      (if n ≠ [] ∨ PP.take 2 ≠ ['/', '/']
      then '/' :: '/' :: (n ++ (if PP ≠ [] ∧ PP.take 1 ≠ ['/'] then '/' :: PP else PP))
      else PP) := by
    by_cases hcond : n ≠ [] ∨ PP.take 2 ≠ ['/', '/']
    · rw [if_pos ?_, if_pos hcond]
      rcases hcond with h | h
      · exact Or.inl h
      · exact Or.inr ⟨hsne, hsnet, h⟩
    · rw [if_neg ?_, if_neg hcond]
      intro hc
      rcases hc with h | h
      · exact hcond (Or.inl h)
      · exact hcond (Or.inr h.2.2)
  simp only [urlunsplit]
  rw [hcc, if_pos hsne, if_neg (fun hc : ([] : Str) ≠ [] => hc rfl)]
  rcases optQ_cases q with ⟨hq0, hq⟩ | ⟨hq0, hq⟩ <;> rw [hq]
  · rw [if_neg (fun hc => hc hq0), List.append_nil]
  · rw [if_pos hq0]
    simp

theorem unparse_shape (w : Str)
    (hs : (urlparse w []).scheme = pystr "http" ∨
      (urlparse w []).scheme = pystr "https") :
    ∃ T1,
      urlunparse { urlparse w [] with fragment := [] } =
        (urlparse w []).scheme ++ ':' :: '/' :: '/' ::
          (T1 ++ optQ (urlparse w []).query) ∧
      '#' ∉ T1 ∧ '?' ∉ T1 ∧ (∀ ch ∈ T1, isUnsafeUrlByte ch = false) ∧
      (';' ∈ T1.dropWhile notNetlocDelim →
        ppJoin (pathParams (T1.dropWhile notNetlocDelim)).1
          (pathParams (T1.dropWhile notNetlocDelim)).2 =
          T1.dropWhile notNetlocDelim) := by
  have inv := urlparse_inv w []
  set c := urlparse w [] with hc
  have hSch : c.scheme ∈ usesParams := by
    rcases hs with h | h <;> rw [h] <;> decide
  have h0 : urlunparse { c with fragment := [] } =
      urlunsplit ⟨c.scheme, c.netloc, ppJoin c.path c.params, c.query, []⟩ := rfl
  rw [h0, urlunsplit_http c.scheme c.netloc (ppJoin c.path c.params) c.query hs]
  have hPPhash : '#' ∉ ppJoin c.path c.params := by
    intro hm
    rcases ppJoin_mem hm with h | h | h
    · exact inv.path_hash h
    · exact absurd h (by decide)
    · exact inv.params_hash h
  have hPPq : '?' ∉ ppJoin c.path c.params := by
    intro hm
    rcases ppJoin_mem hm with h | h | h
    · exact inv.path_qmark h
    · exact absurd h (by decide)
    · exact inv.params_qmark h
  have hPPsafe : ∀ ch ∈ ppJoin c.path c.params, isUnsafeUrlByte ch = false := by
    intro ch hm
    rcases ppJoin_mem hm with h | h | h
    · exact inv.path_safe ch h
    · rw [h]; decide
    · exact inv.params_safe ch h
  by_cases hn : c.netloc = []
  · by_cases hpp2 : (ppJoin c.path c.params).take 2 = ['/', '/']
    · -- Case B: no insertion, PP itself starts with //
      rw [if_neg (fun hcond => by
        rcases hcond with h | h
        · exact h hn
        · exact h hpp2)]
      obtain ⟨PP2, hPP2⟩ := take2_eq_cons hpp2
      refine ⟨PP2, ?_, ?_, ?_, ?_, ?_⟩
      · rw [hPP2]
        simp
      · intro hm
        exact hPPhash (by rw [hPP2]; exact List.mem_cons_of_mem _ (List.mem_cons_of_mem _ hm))
      · intro hm
        exact hPPq (by rw [hPP2]; exact List.mem_cons_of_mem _ (List.mem_cons_of_mem _ hm))
      · intro ch hm
        exact hPPsafe ch (by rw [hPP2]; exact List.mem_cons_of_mem _ (List.mem_cons_of_mem _ hm))
      · intro hmem
        rcases hd : PP2.dropWhile notNetlocDelim with _ | ⟨x, t⟩
        · rw [hd] at hmem
          exact absurd hmem (List.not_mem_nil _)
        · have hx := dropWhile_head_false hd
          have hxm : x ∈ ppJoin c.path c.params := by
            rw [hPP2]
            exact List.mem_cons_of_mem _ (List.mem_cons_of_mem _
              ((List.dropWhile_sublist _).mem (hd ▸ List.mem_cons_self x t)))
          have hx' : x = '/' ∨ x = '?' ∨ x = '#' := by
            by_contra hcon
            push_neg at hcon
            simp [notNetlocDelim, hcon.1, hcon.2.1, hcon.2.2] at hx
          have hxs : x = '/' := by
            rcases hx' with h | h | h
            · exact h
            · exact absurd (h ▸ hxm) hPPq
            · exact absurd (h ▸ hxm) hPPhash
          have hsuffix : ppJoin c.path c.params =
              ('/' :: '/' :: PP2.takeWhile notNetlocDelim) ++ PP2.dropWhile notNetlocDelim := by
            rw [hPP2]
            simp [List.takeWhile_append_dropWhile]
          have hslr : '/' ∈ PP2.dropWhile notNetlocDelim := by
            rw [hd, ← hxs]
            exact List.mem_cons_self _ _
          have hres := ppJoin_splitparams_suffix (inv.lastseg_ok hSch) hsuffix hslr
          rw [hd] at hres
          rw [pathParams, if_pos (hd ▸ hmem)]
          exact hres
    · -- Case C: insertion with empty netloc
      rw [if_pos (Or.inr hpp2), hn, List.nil_append]
      refine ⟨(if ppJoin c.path c.params ≠ [] ∧ (ppJoin c.path c.params).take 1 ≠ ['/']
          then '/' :: ppJoin c.path c.params else ppJoin c.path c.params), rfl, ?_, ?_, ?_, ?_⟩
      · intro hm
        split at hm
        · rcases List.mem_cons.mp hm with he | hm2
          · exact absurd he (by decide)
          · exact hPPhash hm2
        · exact hPPhash hm
      · intro hm
        split at hm
        · rcases List.mem_cons.mp hm with he | hm2
          · exact absurd he (by decide)
          · exact hPPq hm2
        · exact hPPq hm
      · intro ch hm
        split at hm
        · rcases List.mem_cons.mp hm with he | hm2
          · rw [he]; decide
          · exact hPPsafe ch hm2
        · exact hPPsafe ch hm
      · split
      -- two sub-branches of the if on the then/else shapes
        · -- PPc = '/' :: PP with PP nonempty, not starting '/'
          rename_i hcl
          have hdw : ('/' :: ppJoin c.path c.params).dropWhile notNetlocDelim =
              '/' :: ppJoin c.path c.params :=
            List.dropWhile_cons_of_neg (by decide)
          rw [hdw]
          intro hmem
          rw [pathParams, if_pos hmem]
          by_cases hsl : '/' ∈ ppJoin c.path c.params
          · exact ppJoin_splitparams_suffix
              (lastSegOK_cons '/' hsl (inv.lastseg_ok hSch))
              (by rw [List.nil_append]) (List.mem_cons_self _ _)
          · have hmem' : ';' ∈ ppJoin c.path c.params := by
              rcases List.mem_cons.mp hmem with he | hm
              · exact absurd he (by decide)
              · exact hm
            obtain ⟨hsplitPP, hprm⟩ := inv.noslash_params hSch hsl hmem'
            have hls : lastSplitOn '/' ('/' :: ppJoin c.path c.params) =
                some ([], ppJoin c.path c.params) :=
              lastSplitOn_append [] hsl
            have hsp : splitparams ('/' :: ppJoin c.path c.params) =
                ('/' :: c.path, c.params) := by
              unfold splitparams
              simp only [hls, hsplitPP, List.nil_append]
            rw [hsp]
            have hppx : ppJoin c.path c.params = c.path ++ ';' :: c.params := by
              rw [ppJoin, if_pos hprm]
            rw [ppJoin, if_pos hprm, hppx]
            rfl
        · -- PPc = PP, which is empty or starts with '/'
          rename_i hcl
          push_neg at hcl
          by_cases hPPnil : ppJoin c.path c.params = []
          · rw [hPPnil]
            intro hmem
            exact absurd hmem (List.not_mem_nil _)
          · have htk := hcl hPPnil
            obtain ⟨t, ht⟩ := take1_eq_cons htk
            have hdw : (ppJoin c.path c.params).dropWhile notNetlocDelim =
                ppJoin c.path c.params := by
              rw [ht]
              exact List.dropWhile_cons_of_neg (by decide)
            rw [hdw]
            intro hmem
            rw [pathParams, if_pos hmem]
            exact ppJoin_splitparams_suffix (inv.lastseg_ok hSch)
              (by rw [List.nil_append])
              (by rw [ht]; exact List.mem_cons_self _ _)
  · -- Case A: non-empty netloc
    rw [if_pos (Or.inl hn)]
    have hifcl : (if ppJoin c.path c.params ≠ [] ∧
        (ppJoin c.path c.params).take 1 ≠ ['/']
        then '/' :: ppJoin c.path c.params else ppJoin c.path c.params) =
        ppJoin c.path c.params := by
      rcases inv.netloc_path hn with ⟨hp0, hprm0⟩ | htk
      · have : ppJoin c.path c.params = [] := by
          rw [hp0, hprm0]
          rfl
        rw [if_neg (fun hcond => hcond.1 this)]
      · exact if_neg (fun hcond => hcond.2 (ppJoin_head htk))
    rw [hifcl]
    refine ⟨c.netloc ++ ppJoin c.path c.params, by simp, ?_, ?_, ?_, ?_⟩
    · intro hm
      rcases List.mem_append.mp hm with h | h
      · have := inv.netloc_delim _ h
        simp [notNetlocDelim] at this
      · exact hPPhash h
    · intro hm
      rcases List.mem_append.mp hm with h | h
      · have := inv.netloc_delim _ h
        simp [notNetlocDelim] at this
      · exact hPPq h
    · intro ch hm
      rcases List.mem_append.mp hm with h | h
      · exact inv.netloc_safe ch h
      · exact hPPsafe ch h
    · have hdwa : (c.netloc ++ ppJoin c.path c.params).dropWhile notNetlocDelim =
          (ppJoin c.path c.params).dropWhile notNetlocDelim :=
        List.dropWhile_append_of_pos inv.netloc_delim
      rw [hdwa]
      rcases inv.netloc_path hn with ⟨hp0, hprm0⟩ | htk
      · have hnil : ppJoin c.path c.params = [] := by
          rw [hp0, hprm0]
          rfl
        rw [hnil]
        intro hmem
        exact absurd hmem (List.not_mem_nil _)
      · obtain ⟨t, ht⟩ := take1_eq_cons (show (ppJoin c.path c.params).take 1 = ['/'] from ppJoin_head htk)
        have hdw : (ppJoin c.path c.params).dropWhile notNetlocDelim =
            ppJoin c.path c.params := by
          rw [ht]
          exact List.dropWhile_cons_of_neg (by decide)
        rw [hdw]
        intro hmem
        rw [pathParams, if_pos hmem, inv.pp_stable hSch hmem]

/-! ## `norm_url` idempotence -/

theorem norm_url_some_elim {base link u : Str} (hu : norm_url base link = some u) :
    ∃ w, ((urlparse w []).scheme = pystr "http" ∨
        (urlparse w []).scheme = pystr "https") ∧
      u = urlunparse { urlparse w [] with fragment := [] } := by
  simp only [norm_url] at hu
  split at hu
  · cases hu
  · split at hu
    · cases hu
    · split at hu
      · rename_i hsch
        exact ⟨urljoin base (pyStrip link), hsch, (Option.some.inj hu).symm⟩
      · cases hu

theorem no_special_http (R : Str) :
    pyStartsWith (pystr "javascript:") (pystr "http" ++ ':' :: R) = false ∧
    pyStartsWith (pystr "mailto:") (pystr "http" ++ ':' :: R) = false ∧
    pyStartsWith (pystr "tel:") (pystr "http" ++ ':' :: R) = false :=
  ⟨rfl, rfl, rfl⟩

theorem no_special_https (R : Str) :
    pyStartsWith (pystr "javascript:") (pystr "https" ++ ':' :: R) = false ∧
    pyStartsWith (pystr "mailto:") (pystr "https" ++ ':' :: R) = false ∧
    pyStartsWith (pystr "tel:") (pystr "https" ++ ':' :: R) = false :=
  ⟨rfl, rfl, rfl⟩

theorem urljoin_fixed {base u s T1 q : Str}
    (hs : s = pystr "http" ∨ s = pystr "https")
    (hparse : ∀ d, urlparse u d = ⟨s, T1.takeWhile notNetlocDelim,
      (pathParams (T1.dropWhile notNetlocDelim)).1,
      (pathParams (T1.dropWhile notNetlocDelim)).2, q, []⟩)
    (hune : u ≠ [])
    (hn : T1.takeWhile notNetlocDelim ≠ [])
    (hunp : urlunparse ⟨s, T1.takeWhile notNetlocDelim,
      (pathParams (T1.dropWhile notNetlocDelim)).1,
      (pathParams (T1.dropWhile notNetlocDelim)).2, q, []⟩ = u) :
    urljoin base u = u := by
  have hrel : s ∈ usesRelative := by rcases hs with h | h <;> subst h <;> decide
  have hnet : s ∈ usesNetloc := by rcases hs with h | h <;> subst h <;> decide
  simp only [urljoin, hparse]
  by_cases hb : base = []
  · rw [if_pos hb]
  · rw [if_neg hb, if_neg hune]
    by_cases hbs : s = (urlparse base []).scheme
    · rw [if_neg (fun hc => hc.elim (fun h => h hbs) (fun h => h hrel)),
        if_pos ⟨hnet, hn⟩]
      exact hunp
    · rw [if_pos (Or.inl hbs)]

/-- C10: `norm_url` is idempotent on the addresses it returns, provided the
returned address has no leading or trailing whitespace and reparses with a
non-empty netloc: if `norm_url base link = some u`, `u.strip() = u` and
`urlparse(u).netloc` is non-empty, then `norm_url base u = some u`. -/
theorem C10_idempotent (base link u : Str)
    (hu : norm_url base link = some u)
    (hstrip : pyStrip u = u)
    (hnetloc : (urlparse u []).netloc ≠ []) :
    norm_url base u = some u := by
  obtain ⟨w, hs, hueq⟩ := norm_url_some_elim hu
  obtain ⟨T1, hform, h1, h2, h3, ht3⟩ := unparse_shape w hs
  have hU : u = (urlparse w []).scheme ++ ':' :: '/' :: '/' ::
      (T1 ++ optQ (urlparse w []).query) := by
    rw [hueq, hform]
  have inv := urlparse_inv w []
  have hparse : ∀ d, urlparse u d = ⟨(urlparse w []).scheme,
      T1.takeWhile notNetlocDelim,
      (pathParams (T1.dropWhile notNetlocDelim)).1,
      (pathParams (T1.dropWhile notNetlocDelim)).2, (urlparse w []).query, []⟩ := by
    intro d
    rw [hU]
    exact urlparse_assembled _ T1 _ d hs h1 h2 h3 inv.query_hash inv.query_safe
  have hn : T1.takeWhile notNetlocDelim ≠ [] := by
    rw [hparse []] at hnetloc
    exact hnetloc
  have hppfix : ppJoin (pathParams (T1.dropWhile notNetlocDelim)).1
      (pathParams (T1.dropWhile notNetlocDelim)).2 = T1.dropWhile notNetlocDelim := by
    by_cases hmem : ';' ∈ T1.dropWhile notNetlocDelim
    · exact ht3 hmem
    · rw [pathParams, if_neg hmem]
      simp [ppJoin]
  have hunp : urlunparse ⟨(urlparse w []).scheme, T1.takeWhile notNetlocDelim,
      (pathParams (T1.dropWhile notNetlocDelim)).1,
      (pathParams (T1.dropWhile notNetlocDelim)).2, (urlparse w []).query, []⟩ = u := by
    rw [urlunparse_assembled _ T1 _ hs h1 h2 hppfix hn, hU]
  have hune : u ≠ [] := by
    rw [hU]
    intro hc
    rcases List.append_eq_nil.mp hc with ⟨_, hc2⟩
    cases hc2
  have hpre : ¬(pyStartsWith (pystr "javascript:") u = true ∨
      pyStartsWith (pystr "mailto:") u = true ∨
      pyStartsWith (pystr "tel:") u = true) := by
    rw [hU]
    rcases hs with h | h <;> rw [h]
    · rw [(no_special_http _).1, (no_special_http _).2.1, (no_special_http _).2.2]
      simp
    · rw [(no_special_https _).1, (no_special_https _).2.1, (no_special_https _).2.2]
      simp
  have hjoin : urljoin base u = u := urljoin_fixed hs hparse hune hn hunp
  simp only [norm_url]
  rw [hstrip, hjoin, hparse []]
  split
  · rename_i hc
    exact (hune hc).elim
  · exact congrArg some hunp

/-- C10 counterexample: the claim "norm_url(base, u) returns u unchanged for
any address u that norm_url itself returned" fails.  First family: a link
with a space before its fragment yields `http://x/a ` (trailing space), and
re-normalizing strips the space.  Second family: a link whose authority
section is empty yields `http:////y`, and re-normalizing collapses it to
`http://y`. -/
theorem C10_counterexample :
    (norm_url (pystr "http://x/a") (pystr "a #f") = some (pystr "http://x/a ") ∧
     norm_url (pystr "http://x/a") (pystr "http://x/a ") = some (pystr "http://x/a") ∧
     pystr "http://x/a" ≠ pystr "http://x/a ") ∧
    (norm_url [] (pystr "http://////y") = some (pystr "http:////y") ∧
     norm_url [] (pystr "http:////y") = some (pystr "http://y") ∧
     pystr "http://y" ≠ pystr "http:////y") := by
  exact ⟨⟨by decide, by decide, by decide⟩, ⟨by decide, by decide, by decide⟩⟩

theorem C10_witness :
    norm_url (pystr "http://x/a") (pystr "http://x/b") = some (pystr "http://x/b") :=
  C10_idempotent (pystr "http://x/a") (pystr "b") (pystr "http://x/b")
    (by decide) (by decide) (by decide)

end SeoAudit
